import Mathlib

/-!
# A verification model of the STV election calculator (`stv.py`)

This file gives a shallow embedding of the counting engine in `src/stv.py`
and proves / refutes a collection of specification claims about it.

Modelling conventions:

* Python `Fraction` values are `ℚ`; the integer quota is cast into `ℚ` where
  the source compares it with fractional scores.
* The Python `Allocation` dictionary (`Dict[Candidate, List[Ballot]]`) is an
  insertion-ordered association list `List (Candidate × List Nat)`; a bucket
  holds *indices* into a flat ballot store (`List Ballot`).  The store models
  the Python heap: `Ballot.transfer` and the surplus rescaling mutate ballot
  objects in place, which the embedding renders as updates of the store.
  Python `dict` keys are unique, keep first-insertion order, and `del`
  removes the unique entry with a given key; the association-list operations
  below implement exactly that behaviour (uniqueness of keys is an invariant
  proved separately, not assumed by the definitions).
* `random.choice` is modelled by an oracle `Nat → Nat`: the k-th call of
  `break_tie` under the `RANDOM` strategy picks the element with index
  `oracle k % length`, which — like `random.choice` — is always a member of
  the (non-empty) argument list.  The state field `rngK` counts the calls.
* The unbounded `while` loop of `calculate` runs on fuel; `calculate` itself
  is instantiated with enough fuel, and the termination theorem shows that
  this fuel is never exhausted.
* The state fields `rounds`, `log` and `dropped` are accounting
  instrumentation of behaviour the Python code merely prints or discards:
  the round counter, one record per performed election, and the total weight
  of ballots dropped as exhausted.  They are write-only: no control-flow
  decision reads them.
-/

abbrev Candidate := String

/-- A ballot: ranked choices plus current exact weight (`Ballot` in stv.py). -/
structure Ballot where
  choices : List Candidate
  value : ℚ
deriving DecidableEq, Repr

instance : Inhabited Ballot := ⟨⟨[], 1⟩⟩

/-- `Ballot.is_valid`: non-empty and no duplicate preferences.  The source
tests `len(choices) == len(set(choices))`; the size of the set of elements
is the length of `dedup`. -/
def Ballot.isValid (b : Ballot) : Bool :=
  !b.choices.isEmpty && b.choices.length == b.choices.dedup.length

/-- Number of valid ballots (`len(valid_ballots)` in `calculate`). -/
def countValid (ballots : List Ballot) : Nat :=
  (ballots.filter (·.isValid)).length

/-- The Droop quota `len(valid_ballots) // (seats + 1) + 1` (stv.py line 135). -/
def droopQuota (validCount seats : Nat) : Nat :=
  validCount / (seats + 1) + 1

/-- The quota `calculate` uses, as the rational it is compared with. -/
def quotaOf (seats : Nat) (ballots : List Ballot) : ℚ :=
  (droopQuota (countValid ballots) seats : ℚ)

/-! ## `Ballot.from_row`: building a ballot from a CSV row

A row is modelled as the list of (already parsed) rank cells per candidate,
`none` being a blank cell.  `from_row` walks `zip(row, candidates)`, skips
blanks, and bails out (returning the empty — hence spoiled — ballot) when a
rank number occurs twice; otherwise the choices are the candidates sorted by
rank. -/

/-- The accumulation loop of `from_row`: `none` when a duplicate rank is hit. -/
def fromRowGo : List (Option Nat × Candidate) → List (Nat × Candidate) →
    Option (List (Nat × Candidate))
  | [], acc => some acc
  | (none, _) :: rest, acc => fromRowGo rest acc
  | (some k, c) :: rest, acc =>
    if k ∈ acc.map (·.1) then none else fromRowGo rest (acc ++ [(k, c)])

/-- Insert a `(rank, candidate)` pair into a rank-sorted list. -/
def insertPair (p : Nat × Candidate) : List (Nat × Candidate) → List (Nat × Candidate)
  | [] => [p]
  | q :: rest => if p.1 ≤ q.1 then p :: q :: rest else q :: insertPair p rest

/-- Sort pairs by rank (`sorted(choices.items(), key=itemgetter(0))`). -/
def sortPairs : List (Nat × Candidate) → List (Nat × Candidate)
  | [] => []
  | p :: rest => insertPair p (sortPairs rest)

/-- `Ballot.from_row`. -/
def fromRow (row : List (Option Nat)) (candidates : List Candidate) : Ballot :=
  match fromRowGo (row.zip candidates) [] with
  | none => ⟨[], 1⟩
  | some acc => ⟨(sortPairs acc).map (·.2), 1⟩

/-! ## The allocation -/

/-- The allocation: remaining candidates (in dict order) with their buckets of
ballot ids. -/
abbrev Alloc := List (Candidate × List Nat)

/-- The key list of the allocation (`allocation.keys()`). -/
def keys (a : Alloc) : List Candidate := a.map (·.1)

/-- The bucket of a candidate (`allocation[c]`; `[]` when absent). -/
def bucket : Alloc → Candidate → List Nat
  | [], _ => []
  | p :: rest, c => if p.1 = c then p.2 else bucket rest c

/-- Append a ballot id to the (unique) bucket of `c`
(`allocation[c].append(ballot)`). -/
def appendTo : Alloc → Candidate → Nat → Alloc
  | [], _, _ => []
  | p :: rest, c, i => if p.1 = c then (p.1, p.2 ++ [i]) :: rest else p :: appendTo rest c i

/-- Remove the entry of `c` (`del allocation[c]` / `allocation.pop(c)`). -/
def eraseKey : Alloc → Candidate → Alloc
  | [], _ => []
  | p :: rest, c => if p.1 = c then eraseKey rest c else p :: eraseKey rest c

/-- All ballot ids currently held in buckets. -/
def flatIds (a : Alloc) : List Nat := a.flatMap (·.2)

/-- `Ballot.calc_score` over a bucket: the sum of the ballots' weights. -/
def scoreOf (st : List Ballot) (ids : List Nat) : ℚ :=
  (ids.map (fun i => (st.getD i default).value)).sum

/-- The score snapshot of a round
(`{c: Ballot.calc_score(bs) for c, bs in allocation.items()}`). -/
def scoresList (st : List Ballot) (a : Alloc) : List (Candidate × ℚ) :=
  a.map (fun p => (p.1, scoreOf st p.2))

/-- Score lookup in a snapshot (`scores[candidate]`). -/
def lookupScore : List (Candidate × ℚ) → Candidate → ℚ
  | [], _ => 0
  | p :: rest, c => if p.1 = c then p.2 else lookupScore rest c

/-- Total ballot weight currently held in the allocation. -/
def allocSum (st : List Ballot) (a : Alloc) : ℚ :=
  (a.map (fun p => scoreOf st p.2)).sum

/-- `min` over a non-empty list of rationals (`min(scores.values())`). -/
def listMin : List ℚ → ℚ
  | [] => 0
  | x :: xs => xs.foldl min x

/-- `sorted(tied)[0]`: the least element of a non-empty list of names. -/
def sortedHead : List Candidate → Option Candidate
  | [] => none
  | x :: xs => some (xs.foldl (fun a b => if b < a then b else a) x)

/-! ## Tie strategies -/

/-- `TieStrategy` (stv.py lines 106-121). -/
inductive TieStrategy where
  | NONE
  | RANDOM
  | FIRST_IN_ORDER
deriving DecidableEq, Repr

/-- `TieStrategy.break_tie`.  `k` is the index of this call into the
randomness oracle. -/
def breakTie (strat : TieStrategy) (oracle : Nat → Nat) (k : Nat)
    (tied : List Candidate) : Option Candidate :=
  match strat with
  | .RANDOM => tied.get? (oracle k % tied.length)
  | .FIRST_IN_ORDER => sortedHead tied
  | .NONE => none

/-! ## The engine state and results -/

/-- Ghost record of one performed election: the candidate, the snapshot
score used for the surplus, the total weight of the bucket that was popped,
and the weight this election consumed (bucket weight minus re-injected
weight). -/
structure ElectRec where
  cand : Candidate
  score : ℚ
  bucketW : ℚ
  spent : ℚ
deriving DecidableEq, Repr

/-- The loop state of `calculate`. -/
structure ElecState where
  alloc : Alloc
  store : List Ballot
  elected : List Candidate
  rounds : Nat
  log : List ElectRec
  dropped : ℚ
  rngK : Nat
deriving DecidableEq, Repr, Inhabited

/-- The outcome of `calculate`: normal return or one of the raises.
`fuelOut` is an artefact of the fuel-based loop; it is proved unreachable. -/
inductive CalcResult where
  | ok (elected : List Candidate)
  | unfilledSeats (elected : List Candidate) (unfilled : Nat)
  | unbreakableTie (elected : List Candidate) (tied : List Candidate) (electing : Bool)
  | keyError
  | fuelOut
deriving DecidableEq, Repr

/-- Outcome of running the loop on some fuel; every constructor carries the
state reached. -/
inductive LoopOut where
  | outOfFuel (s : ElecState)
  | done (s : ElecState)
  | err (e : CalcResult) (s : ElecState)
deriving DecidableEq, Repr

/-- The state carried by a `LoopOut`. -/
def LoopOut.state : LoopOut → ElecState
  | .outOfFuel s => s
  | .done s => s
  | .err _ s => s

/-! ## Ballot transfer -/

/-- `Ballot.transfer`: pop leading choices that are no longer allocation
keys; append the ballot to the bucket of the first remaining choice, or —
when the choices run out — drop it (the `IndexError` branch).  Returns the
updated store and allocation plus the weight dropped (`0` or the ballot's
value), the latter being ghost accounting. -/
def transfer (st : List Ballot) (a : Alloc) (i : Nat) : List Ballot × Alloc × ℚ :=
  let b := st.getD i default
  let cs := b.choices.dropWhile (fun x => !decide (x ∈ keys a))
  let st' := st.set i { b with choices := cs }
  match cs with
  | [] => (st', a, b.value)
  | c :: _ => (st', appendTo a c i, 0)

/-- Transfer a list of ballots in order (the loop in `eliminate`'s
`for ballot in allocation.pop(eliminated)`). -/
def transferAll (st : List Ballot) (a : Alloc) : List Nat → List Ballot × Alloc × ℚ
  | [] => (st, a, 0)
  | i :: rest =>
    let r := transfer st a i
    let r' := transferAll r.1 r.2.1 rest
    (r'.1, r'.2.1, r.2.2 + r'.2.2)

/-- The surplus redistribution loop: for each ballot of the popped bucket,
first `ballot.value *= multiplier`, then `ballot.transfer(allocation)`. -/
def electTransfer (m : ℚ) (st : List Ballot) (a : Alloc) :
    List Nat → List Ballot × Alloc × ℚ
  | [] => (st, a, 0)
  | i :: rest =>
    let b := st.getD i default
    let st0 := st.set i { b with value := b.value * m }
    let r := transfer st0 a i
    let r' := electTransfer m r.1 r.2.1 rest
    (r'.1, r'.2.1, r.2.2 + r'.2.2)

/-! ## The round branches -/

/-- Eliminate a candidate: pop their bucket and transfer each ballot
(stv.py lines 202-204). -/
def eliminate (s : ElecState) (c : Candidate) : ElecState :=
  let ids := bucket s.alloc c
  let a0 := eraseKey s.alloc c
  let r := transferAll s.store a0 ids
  { s with alloc := r.2.1, store := r.1, dropped := s.dropped + r.2.2 }

/-- Elect one candidate against the snapshot `sc` (stv.py lines 169-181):
append to `elected`; with zero surplus just delete the bucket, otherwise
rescale every ballot of the bucket by `surplus / quota` and transfer it.
The `log` entry records the weight the election consumed. -/
def electOne (quota : ℚ) (sc : List (Candidate × ℚ)) (s : ElecState)
    (c : Candidate) : ElecState :=
  let score := lookupScore sc c
  let surplus := score - quota
  let bucketWeight := scoreOf s.store (bucket s.alloc c)
  if surplus = 0 then
    { s with elected := s.elected ++ [c], alloc := eraseKey s.alloc c,
             log := s.log ++ [⟨c, score, bucketWeight, bucketWeight⟩] }
  else
    let m := surplus / quota
    let ids := bucket s.alloc c
    let a0 := eraseKey s.alloc c
    let r := electTransfer m s.store a0 ids
    { s with elected := s.elected ++ [c], alloc := r.2.1, store := r.1,
             dropped := s.dropped + r.2.2,
             log := s.log ++ [⟨c, score, bucketWeight,
               bucketWeight - bucketWeight * m⟩] }

/-- Elect every candidate of the (possibly trimmed) reached-quota list. -/
def electAll (quota : ℚ) (sc : List (Candidate × ℚ)) (s : ElecState) :
    List Candidate → ElecState
  | [] => s
  | c :: rest => electAll quota sc (electOne quota sc s c) rest

/-- One iteration of the `while` loop of `calculate`
(stv.py lines 147-206): returns either a raised error or the next state. -/
def roundBody (seats : Nat) (quota : ℚ) (strat : TieStrategy)
    (oracle : Nat → Nat) (noDefaulting : Bool) (s : ElecState) :
    Sum CalcResult ElecState :=
  if s.alloc.length = 0 then
    .inl (.unfilledSeats s.elected (seats - s.elected.length))
  else
    let toElect := seats - s.elected.length
    let sc := scoresList s.store s.alloc
    let reachedQuota := (sc.filter (fun p => quota ≤ p.2)).map (·.1)
    if reachedQuota ≠ [] then
      if toElect < reachedQuota.length then
        match breakTie strat oracle s.rngK reachedQuota with
        | none => .inl (.unbreakableTie s.elected reachedQuota true)
        | some w =>
          .inr (electAll quota sc { s with rngK := s.rngK + 1, rounds := s.rounds + 1 } [w])
      else
        .inr (electAll quota sc { s with rounds := s.rounds + 1 } reachedQuota)
    else if s.alloc.length ≤ toElect then
      if noDefaulting then
        .inl (.unfilledSeats s.elected toElect)
      else
        .inr { s with elected := s.elected ++ keys s.alloc, rounds := s.rounds + 1 }
    else
      let minScore := listMin (sc.map (·.2))
      let lowest := (sc.filter (fun p => p.2 = minScore)).map (·.1)
      if 1 < lowest.length then
        match breakTie strat oracle s.rngK lowest with
        | none => .inl (.unbreakableTie s.elected lowest false)
        | some e =>
          .inr (eliminate { s with rngK := s.rngK + 1, rounds := s.rounds + 1 } e)
      else
        .inr (eliminate { s with rounds := s.rounds + 1 } (lowest.headD ""))

/-- The `while len(elected) < seats` loop, on fuel. -/
def loop (seats : Nat) (quota : ℚ) (strat : TieStrategy) (oracle : Nat → Nat)
    (noDefaulting : Bool) : Nat → ElecState → LoopOut
  | 0, s => .outOfFuel s
  | fuel + 1, s =>
    if s.elected.length < seats then
      match roundBody seats quota strat oracle noDefaulting s with
      | .inl e => .err e s
      | .inr s' => loop seats quota strat oracle noDefaulting fuel s'
    else
      .done s

/-! ## Initialisation and the top-level `calculate` -/

/-- First-occurrence deduplication: the key set and order of the Python dict
comprehension `{c: [] for c in candidates}`. -/
def dedupFirst (l : List Candidate) : List Candidate :=
  l.foldl (fun acc c => if c ∈ acc then acc else acc ++ [c]) []

/-- The initial allocation: every candidate with an empty bucket. -/
def mkAlloc (candidates : List Candidate) : Alloc :=
  (dedupFirst candidates).map (fun c => (c, ([] : List Nat)))

/-- Seed the given ballot ids: each valid ballot goes to the bucket of its
first choice (stv.py lines 142-143).  `none` models the `KeyError` (or, for
an impossible empty valid ballot, `IndexError`) the Python code would raise
when that first choice has no bucket. -/
def seedList (st : List Ballot) : List Nat → Alloc → Option Alloc
  | [], a => some a
  | i :: rest, a =>
    let b := st.getD i default
    if b.isValid then
      match b.choices with
      | [] => none
      | c :: _ => if c ∈ keys a then seedList st rest (appendTo a c i) else none
    else
      seedList st rest a

/-- The seeded initial state of `calculate`. -/
def initStateOf (candidates : List Candidate) (ballots : List Ballot) :
    Option ElecState :=
  match seedList ballots (List.range ballots.length) (mkAlloc candidates) with
  | none => none
  | some a =>
    some { alloc := a, store := ballots, elected := [], rounds := 0,
           log := [], dropped := 0, rngK := 0 }

/-- Fuel that (provably) suffices for any run. -/
def fuelOf (candidates : List Candidate) (seats : Nat) : Nat :=
  (dedupFirst candidates).length + seats + 1

/-- The full run of `calculate`: result plus final state (the final state's
store is the list of ballot objects as the run leaves them). -/
def calculateFull (seats : Nat) (candidates : List Candidate)
    (ballots : List Ballot) (noDefaulting : Bool) (strat : TieStrategy)
    (oracle : Nat → Nat) : CalcResult × ElecState :=
  match initStateOf candidates ballots with
  | none =>
    (.keyError,
     { alloc := mkAlloc candidates, store := ballots, elected := [],
       rounds := 0, log := [], dropped := 0, rngK := 0 })
  | some s0 =>
    match loop seats (quotaOf seats ballots) strat oracle noDefaulting
        (fuelOf candidates seats) s0 with
    | .done s => (.ok s.elected, s)
    | .err e s => (e, s)
    | .outOfFuel s => (.fuelOut, s)

/-- `calculate` proper: the returned (or raised) result. -/
def calculate (seats : Nat) (candidates : List Candidate)
    (ballots : List Ballot) (noDefaulting : Bool) (strat : TieStrategy)
    (oracle : Nat → Nat) : CalcResult :=
  (calculateFull seats candidates ballots noDefaulting strat oracle).1

/-- The ballot objects as `calculate` leaves them (Python mutates the
caller's ballots in place). -/
def finalBallots (seats : Nat) (candidates : List Candidate)
    (ballots : List Ballot) (noDefaulting : Bool) (strat : TieStrategy)
    (oracle : Nat → Nat) : List Ballot :=
  (calculateFull seats candidates ballots noDefaulting strat oracle).2.store

/-- The engine state at the `k`-th round boundary (the state after `k`
rounds, or the terminal state if the run ends earlier). -/
def boundaryState (seats : Nat) (candidates : List Candidate)
    (ballots : List Ballot) (noDefaulting : Bool) (strat : TieStrategy)
    (oracle : Nat → Nat) (k : Nat) : ElecState :=
  match initStateOf candidates ballots with
  | none => default
  | some s0 =>
    (loop seats (quotaOf seats ballots) strat oracle noDefaulting k s0).state

/-- Total weight consumed by the elections recorded in a log. -/
def spentSum (log : List ElectRec) : ℚ := (log.map (·.spent)).sum

/-- Number of logged elections whose snapshot score was exactly the quota. -/
def countExactQuota (log : List ElectRec) (quota : ℚ) : Nat :=
  (log.filter (fun r => r.score = quota)).length

/-- A fixed trivial oracle for concrete runs. -/
def zeroOracle : Nat → Nat := fun _ => 0

/-- Pointwise non-negativity of stored ballot weights. -/
def storeNonneg (st : List Ballot) : Prop :=
  ∀ j : Nat, 0 ≤ (st.getD j default).value

/-- Well-formedness of an engine state: allocation keys are unique (a Python
dict), no ballot is held in two buckets at once, and all held ids point into
the store. -/
structure WFA (s : ElecState) : Prop where
  keysNodup : (keys s.alloc).Nodup
  idsNodup : (flatIds s.alloc).Nodup
  idsLt : ∀ i ∈ flatIds s.alloc, i < s.store.length

/-- The books of a run: weight still allocated, weight dropped as exhausted,
and weight consumed by elections always add up to the initial total `V`. -/
def acctInv (V : ℚ) (s : ElecState) : Prop :=
  allocSum s.store s.alloc + s.dropped + spentSum s.log = V

/-- The exact amount an election consumes: the popped bucket's weight minus
the rescaled weight that is re-injected.  It equals the quota exactly when
the bucket weight equals the snapshot score and the score equals the
quota. -/
def logSpec (quota : ℚ) (r : ElectRec) : Prop :=
  r.spent = r.bucketW - r.bucketW * ((r.score - quota) / quota)

/-- What one successfully executed round guarantees: well-formedness is kept,
the store size is kept, allocation keys and held ids only shrink, the
weight books stay balanced, weights stay non-negative, dropped weight only
grows, and the quantity `|allocation| + (seats − |elected|)` strictly
decreases. -/
structure StepOk (seats : Nat) (s s' : ElecState) : Prop where
  wfa : WFA s'
  storeLen : s'.store.length = s.store.length
  flatSub : ∀ x ∈ flatIds s'.alloc, x ∈ flatIds s.alloc
  keysSub : ∀ x ∈ keys s'.alloc, x ∈ keys s.alloc
  acct : allocSum s'.store s'.alloc + s'.dropped + spentSum s'.log
       = allocSum s.store s.alloc + s.dropped + spentSum s.log
  nonneg : storeNonneg s.store → storeNonneg s'.store
  dropMono : storeNonneg s.store → s.dropped ≤ s'.dropped
  measureLt : s.elected.length < seats →
    s'.alloc.length + (seats - s'.elected.length)
      < s.alloc.length + (seats - s.elected.length)
  roundsSucc : s'.rounds = s.rounds + 1

/-- Relations that hold between a state and any state the loop reaches from
it. -/
structure Reach (s s' : ElecState) : Prop where
  wfa : WFA s'
  storeLen : s'.store.length = s.store.length
  flatSub : ∀ x ∈ flatIds s'.alloc, x ∈ flatIds s.alloc
  keysSub : ∀ x ∈ keys s'.alloc, x ∈ keys s.alloc
  acct : allocSum s'.store s'.alloc + s'.dropped + spentSum s'.log
       = allocSum s.store s.alloc + s.dropped + spentSum s.log
  nonneg : storeNonneg s.store → storeNonneg s'.store
  dropMono : storeNonneg s.store → s.dropped ≤ s'.dropped

/-! ## Concrete election inputs used in the claim analyses -/

/-- A fresh ballot with the given preferences (weight 1, as at ingestion). -/
def mkB (cs : List Candidate) : Ballot := ⟨cs, 1⟩

/-- Surplus example (conservation): 2 seats, candidates A, B, C; four
ballots `A > B`, one `B`, one `C`.  Quota 3; A is elected with score 4. -/
def surplusBallots : List Ballot :=
  List.replicate 4 (mkB ["A", "B"]) ++ [mkB ["B"], mkB ["C"]]

/-- Electing-tie example: 3 seats, candidates W, Z, B, C; eight ballots
`W > Z`, six `W > B`, six `W > C`.  Quota 6; W is elected in round 1 with a
large surplus, after which Z, B and C all sit above quota. -/
def trimBallots : List Ballot :=
  List.replicate 8 (mkB ["W", "Z"]) ++ List.replicate 6 (mkB ["W", "B"])
    ++ List.replicate 6 (mkB ["W", "C"])

/-- Mutation example: 1 seat, candidates A, B, four ballots `A > B`.
Quota 3; A is elected with surplus 1 and every ballot is rescaled to 1/3
and transferred to B. -/
def mutBallots : List Ballot := List.replicate 4 (mkB ["A", "B"])

/-- Exactly-at-quota example: 1 seat, candidates A, B, two ballots `A`.
Quota 2; A is elected with zero surplus and no ballot is touched. -/
def exactQuotaBallots : List Ballot := [mkB ["A"], mkB ["A"]]

/-- Eliminating-tie example: 1 seat, candidates A, B, C; two ballots `A`,
one `B`, one `C`.  Quota 3; nobody reaches it and B and C tie at the
minimum score 1. -/
def tieBallots : List Ballot := [mkB ["A"], mkB ["A"], mkB ["B"], mkB ["C"]]


/-! ## Basic lemmas about the store and the allocation -/

theorem getD_set_same (l : List Ballot) (i : Nat) (b : Ballot) (h : i < l.length) :
    (l.set i b).getD i default = b := by
  induction l generalizing i with
  | nil => simp at h
  | cons x xs ih =>
    cases i with
    | zero => simp [List.set]
    | succ j =>
      simp only [List.set, List.getD_cons_succ]
      exact ih j (by simpa using h)

theorem getD_set_other (l : List Ballot) (i j : Nat) (b : Ballot) (h : i ≠ j) :
    (l.set i b).getD j default = l.getD j default := by
  induction l generalizing i j with
  | nil => simp [List.set]
  | cons x xs ih =>
    cases i with
    | zero =>
      cases j with
      | zero => exact absurd rfl h
      | succ j' => simp [List.set]
    | succ i' =>
      cases j with
      | zero => simp [List.set]
      | succ j' =>
        simp only [List.set, List.getD_cons_succ]
        exact ih i' j' (by omega)

theorem scoreOf_congr (st st' : List Ballot) (ids : List Nat)
    (h : ∀ i ∈ ids, (st'.getD i default).value = (st.getD i default).value) :
    scoreOf st' ids = scoreOf st ids := by
  induction ids with
  | nil => rfl
  | cons i rest ih =>
    simp only [scoreOf, List.map_cons, List.sum_cons] at *
    rw [h i (by simp), ih (fun j hj => h j (by simp [hj]))]

theorem scoreOf_append (st : List Ballot) (l₁ l₂ : List Nat) :
    scoreOf st (l₁ ++ l₂) = scoreOf st l₁ + scoreOf st l₂ := by
  simp [scoreOf]

theorem scoreOf_perm (st : List Ballot) {l₁ l₂ : List Nat} (h : l₁.Perm l₂) :
    scoreOf st l₁ = scoreOf st l₂ :=
  (h.map _).sum_eq

theorem allocSum_eq_scoreOf_flat (st : List Ballot) (a : Alloc) :
    allocSum st a = scoreOf st (flatIds a) := by
  induction a with
  | nil => rfl
  | cons p rest ih =>
    simp only [allocSum, flatIds, List.map_cons, List.sum_cons, List.flatMap_cons,
      scoreOf_append] at *
    rw [ih]

theorem allocSum_congr (st st' : List Ballot) (a : Alloc)
    (h : ∀ i ∈ flatIds a, (st'.getD i default).value = (st.getD i default).value) :
    allocSum st' a = allocSum st a := by
  rw [allocSum_eq_scoreOf_flat, allocSum_eq_scoreOf_flat]
  exact scoreOf_congr st st' _ h

theorem keys_appendTo (a : Alloc) (c : Candidate) (i : Nat) :
    keys (appendTo a c i) = keys a := by
  induction a with
  | nil => rfl
  | cons p rest ih =>
    by_cases h : p.1 = c
    · simp [appendTo, keys, h]
    · simp only [appendTo, if_neg h]
      rw [show keys (p :: appendTo rest c i) = p.1 :: keys (appendTo rest c i) from rfl,
        show keys (p :: rest) = p.1 :: keys rest from rfl, ih]

theorem appendTo_of_notMem (a : Alloc) (c : Candidate) (i : Nat)
    (h : c ∉ keys a) : appendTo a c i = a := by
  induction a with
  | nil => rfl
  | cons p rest ih =>
    simp only [keys, List.map_cons, List.mem_cons, not_or] at h
    simp only [appendTo]
    rw [if_neg (fun hh => h.1 hh.symm), ih (by simpa [keys] using h.2)]

theorem flatIds_appendTo_perm (a : Alloc) (c : Candidate) (i : Nat)
    (h : c ∈ keys a) : (flatIds (appendTo a c i)).Perm (i :: flatIds a) := by
  induction a with
  | nil => simp [keys] at h
  | cons p rest ih =>
    by_cases hp : p.1 = c
    · simp only [appendTo, if_pos hp, flatIds, List.flatMap_cons]
      rw [List.append_assoc]
      exact @List.perm_middle _ i p.2 (rest.flatMap (·.2))
    · have hc : c ∈ keys rest := by
        simp only [keys, List.map_cons, List.mem_cons] at h
        rcases h with h | h
        · exact absurd h.symm hp
        · exact h
      simp only [appendTo, if_neg hp, flatIds, List.flatMap_cons]
      exact ((ih hc).append_left p.2).trans
        (@List.perm_middle _ i p.2 (rest.flatMap (·.2)))

theorem keys_cons (p : Candidate × List Nat) (rest : Alloc) :
    keys (p :: rest) = p.1 :: keys rest := rfl

theorem mem_keys_cons {p : Candidate × List Nat} {rest : Alloc} {c : Candidate}
    (hc : c ∈ keys (p :: rest)) (hp : p.1 ≠ c) : c ∈ keys rest := by
  rw [keys_cons, List.mem_cons] at hc
  rcases hc with hc | hc
  · exact absurd hc.symm hp
  · exact hc

theorem keys_eraseKey_mem (a : Alloc) (c x : Candidate) :
    x ∈ keys (eraseKey a c) ↔ x ∈ keys a ∧ x ≠ c := by
  induction a with
  | nil => simp [eraseKey, keys]
  | cons p rest ih =>
    by_cases hp : p.1 = c
    · rw [show eraseKey (p :: rest) c = eraseKey rest c by simp [eraseKey, hp],
        keys_cons, ih, List.mem_cons]
      constructor
      · rintro ⟨hx, hxc⟩
        exact ⟨Or.inr hx, hxc⟩
      · rintro ⟨hx | hx, hxc⟩
        · exact absurd (hx.trans hp) hxc
        · exact ⟨hx, hxc⟩
    · rw [show eraseKey (p :: rest) c = p :: eraseKey rest c by simp [eraseKey, hp],
        keys_cons, keys_cons, List.mem_cons, List.mem_cons, ih]
      constructor
      · rintro (hx | ⟨hx, hxc⟩)
        · exact ⟨Or.inl hx, fun hh => hp (hx ▸ hh ▸ rfl)⟩
        · exact ⟨Or.inr hx, hxc⟩
      · rintro ⟨hx | hx, hxc⟩
        · exact Or.inl hx
        · exact Or.inr ⟨hx, hxc⟩

theorem eraseKey_of_notMem (a : Alloc) (c : Candidate) (h : c ∉ keys a) :
    eraseKey a c = a := by
  induction a with
  | nil => rfl
  | cons p rest ih =>
    rw [keys_cons, List.mem_cons, not_or] at h
    simp only [eraseKey]
    rw [if_neg (fun hh => h.1 hh.symm), ih h.2]

theorem keys_eraseKey_nodup (a : Alloc) (c : Candidate) (h : (keys a).Nodup) :
    (keys (eraseKey a c)).Nodup := by
  induction a with
  | nil => simp [eraseKey, keys]
  | cons p rest ih =>
    rw [keys_cons, List.nodup_cons] at h
    by_cases hp : p.1 = c
    · rw [show eraseKey (p :: rest) c = eraseKey rest c by simp [eraseKey, hp]]
      exact ih h.2
    · rw [show eraseKey (p :: rest) c = p :: eraseKey rest c by simp [eraseKey, hp],
        keys_cons, List.nodup_cons]
      refine ⟨fun hx => ?_, ih h.2⟩
      rw [keys_eraseKey_mem] at hx
      exact h.1 hx.1

theorem length_eraseKey_of_nodup (a : Alloc) (c : Candidate)
    (hn : (keys a).Nodup) (hc : c ∈ keys a) :
    (eraseKey a c).length + 1 = a.length := by
  induction a with
  | nil => simp [keys] at hc
  | cons p rest ih =>
    rw [keys_cons, List.nodup_cons] at hn
    by_cases hp : p.1 = c
    · rw [show eraseKey (p :: rest) c = eraseKey rest c by simp [eraseKey, hp]]
      rw [eraseKey_of_notMem rest c (by rw [← hp]; exact hn.1)]
      simp
    · rw [show eraseKey (p :: rest) c = p :: eraseKey rest c by simp [eraseKey, hp]]
      simp only [List.length_cons]
      rw [← ih hn.2 (mem_keys_cons hc hp)]

/-- Splitting an allocation at a key: the held ids are, up to permutation,
the bucket of `c` together with the ids of the allocation with `c` erased. -/
theorem flat_split_perm (a : Alloc) (c : Candidate)
    (hn : (keys a).Nodup) (hc : c ∈ keys a) :
    (flatIds a).Perm (bucket a c ++ flatIds (eraseKey a c)) := by
  induction a with
  | nil => simp [keys] at hc
  | cons p rest ih =>
    rw [keys_cons, List.nodup_cons] at hn
    by_cases hp : p.1 = c
    · rw [show eraseKey (p :: rest) c = eraseKey rest c by simp [eraseKey, hp],
        show bucket (p :: rest) c = p.2 by simp [bucket, hp],
        eraseKey_of_notMem rest c (by rw [← hp]; exact hn.1)]
      rfl
    · rw [show eraseKey (p :: rest) c = p :: eraseKey rest c by simp [eraseKey, hp],
        show bucket (p :: rest) c = bucket rest c by simp [bucket, hp],
        show flatIds (p :: rest) = p.2 ++ flatIds rest from rfl,
        show flatIds (p :: eraseKey rest c) = p.2 ++ flatIds (eraseKey rest c) from rfl]
      have h1 := (ih hn.2 (mem_keys_cons hc hp)).append_left p.2
      refine h1.trans ?_
      rw [← List.append_assoc, ← List.append_assoc]
      exact List.perm_append_comm.append_right _

theorem allocSum_split (st : List Ballot) (a : Alloc) (c : Candidate)
    (hn : (keys a).Nodup) (hc : c ∈ keys a) :
    allocSum st a = scoreOf st (bucket a c) + allocSum st (eraseKey a c) := by
  rw [allocSum_eq_scoreOf_flat, allocSum_eq_scoreOf_flat,
    scoreOf_perm st (flat_split_perm a c hn hc), scoreOf_append]

theorem allocSum_appendTo (st : List Ballot) (a : Alloc) (c : Candidate) (i : Nat)
    (hc : c ∈ keys a) :
    allocSum st (appendTo a c i) = (st.getD i default).value + allocSum st a := by
  rw [allocSum_eq_scoreOf_flat, allocSum_eq_scoreOf_flat,
    scoreOf_perm st (flatIds_appendTo_perm a c i hc)]
  simp [scoreOf]

theorem lookupScore_scoresList (st : List Ballot) (a : Alloc) (c : Candidate) :
    lookupScore (scoresList st a) c = scoreOf st (bucket a c) := by
  induction a with
  | nil => simp [scoresList, lookupScore, bucket, scoreOf]
  | cons p rest ih =>
    by_cases hp : p.1 = c
    · simp [scoresList, lookupScore, bucket, hp]
    · simp only [scoresList, List.map_cons, lookupScore, bucket, if_neg hp]
      exact ih

theorem scoresList_keys (st : List Ballot) (a : Alloc) :
    (scoresList st a).map (·.1) = keys a := by
  simp [scoresList, keys]

/-! ## Lemmas about `transfer` -/

theorem set_oob (l : List Ballot) (i : Nat) (b : Ballot) (h : l.length ≤ i) :
    l.set i b = l := by
  induction l generalizing i with
  | nil => rfl
  | cons x xs ih =>
    cases i with
    | zero => simp at h
    | succ i' =>
      simp only [List.set]
      rw [ih i' (by simpa using h)]

theorem getD_set_value (l : List Ballot) (i j : Nat) (b : Ballot)
    (hv : b.value = (l.getD i default).value) :
    ((l.set i b).getD j default).value = (l.getD j default).value := by
  by_cases hij : i = j
  · subst hij
    by_cases hi : i < l.length
    · rw [getD_set_same l i b hi, hv]
    · rw [set_oob l i b (by omega)]
  · rw [getD_set_other l i j b hij]

theorem dropWhile_head_false {p : Candidate → Bool} :
    ∀ {l tl : List Candidate} {c : Candidate}, l.dropWhile p = c :: tl → p c = false := by
  intro l
  induction l with
  | nil => intro tl c h; simp [List.dropWhile] at h
  | cons x xs ih =>
    intro tl c h
    by_cases hx : p x
    · rw [List.dropWhile_cons_of_pos hx] at h
      exact ih h
    · rw [List.dropWhile_cons_of_neg hx] at h
      cases h
      simpa using hx

theorem transfer_length (st : List Ballot) (a : Alloc) (i : Nat) :
    (transfer st a i).1.length = st.length := by
  unfold transfer
  dsimp only
  split
  · simp
  · simp

theorem transfer_keys (st : List Ballot) (a : Alloc) (i : Nat) :
    keys (transfer st a i).2.1 = keys a := by
  unfold transfer
  dsimp only
  split
  · rfl
  · next c tl heq =>
    exact keys_appendTo a c i

theorem transfer_value (st : List Ballot) (a : Alloc) (i : Nat) (j : Nat) :
    ((transfer st a i).1.getD j default).value = (st.getD j default).value := by
  unfold transfer
  dsimp only
  split
  · exact getD_set_value st i j _ rfl
  · exact getD_set_value st i j _ rfl

theorem transfer_acct (st : List Ballot) (a : Alloc) (i : Nat) :
    allocSum (transfer st a i).1 (transfer st a i).2.1 + (transfer st a i).2.2
      = allocSum st a + (st.getD i default).value := by
  unfold transfer
  dsimp only
  split
  · next heq =>
    have hcong : allocSum (st.set i
        { st.getD i default with
          choices := (st.getD i default).choices.dropWhile
            (fun x => !decide (x ∈ keys a)) }) a = allocSum st a :=
      allocSum_congr st _ a (fun k _ => getD_set_value st i k _ rfl)
    rw [hcong]
  · next c tl heq =>
    have hc : c ∈ keys a := by
      have := dropWhile_head_false heq
      simpa using this
    rw [allocSum_appendTo _ a c i hc]
    have hcong : allocSum (st.set i
        { st.getD i default with
          choices := (st.getD i default).choices.dropWhile
            (fun x => !decide (x ∈ keys a)) }) a = allocSum st a :=
      allocSum_congr st _ a (fun k _ => getD_set_value st i k _ rfl)
    rw [hcong]
    dsimp only
    have hval := getD_set_value st i i
      ({ st.getD i default with
         choices := (st.getD i default).choices.dropWhile
           (fun x => !decide (x ∈ keys a)) }) rfl
    rw [hval]
    ring

theorem transfer_flat_mem (st : List Ballot) (a : Alloc) (i : Nat) (x : Nat)
    (hx : x ∈ flatIds (transfer st a i).2.1) : x ∈ flatIds a ∨ x = i := by
  revert hx
  unfold transfer
  dsimp only
  split
  · intro hx; left; exact hx
  · next c tl heq =>
    intro hx
    have hc : c ∈ keys a := by
      have := dropWhile_head_false heq
      simpa using this
    have h2 := List.mem_cons.mp ((flatIds_appendTo_perm a c i hc).mem_iff.mp hx)
    rcases h2 with h | h
    · right; exact h
    · left; exact h

theorem transfer_flat_grow (st : List Ballot) (a : Alloc) (i : Nat) (x : Nat)
    (hx : x ∈ flatIds a) : x ∈ flatIds (transfer st a i).2.1 := by
  unfold transfer
  dsimp only
  split
  · exact hx
  · next c tl heq =>
    have hc : c ∈ keys a := by
      have := dropWhile_head_false heq
      simpa using this
    exact (flatIds_appendTo_perm a c i hc).mem_iff.mpr (by simp [hx])

theorem transfer_flat_nodup (st : List Ballot) (a : Alloc) (i : Nat)
    (hn : (flatIds a).Nodup) (hi : i ∉ flatIds a) :
    (flatIds (transfer st a i).2.1).Nodup := by
  unfold transfer
  dsimp only
  split
  · exact hn
  · next c tl heq =>
    have hc : c ∈ keys a := by
      have := dropWhile_head_false heq
      simpa using this
    exact ((flatIds_appendTo_perm a c i hc).nodup_iff).mpr (by simp [hn, hi])

theorem transfer_drop_nonneg (st : List Ballot) (a : Alloc) (i : Nat)
    (h : storeNonneg st) : 0 ≤ (transfer st a i).2.2 := by
  unfold transfer
  dsimp only
  split
  · exact h i
  · exact le_refl 0

theorem transfer_storeNonneg (st : List Ballot) (a : Alloc) (i : Nat)
    (h : storeNonneg st) : storeNonneg (transfer st a i).1 := by
  intro j
  rw [transfer_value st a i j]
  exact h j

/-! ## Lemmas about `transferAll` -/

theorem transferAll_length (st : List Ballot) (a : Alloc) (ids : List Nat) :
    (transferAll st a ids).1.length = st.length := by
  induction ids generalizing st a with
  | nil => rfl
  | cons i rest ih =>
    simp only [transferAll]
    rw [ih, transfer_length]

theorem transferAll_keys (st : List Ballot) (a : Alloc) (ids : List Nat) :
    keys (transferAll st a ids).2.1 = keys a := by
  induction ids generalizing st a with
  | nil => rfl
  | cons i rest ih =>
    simp only [transferAll]
    rw [ih, transfer_keys]

theorem transferAll_value (st : List Ballot) (a : Alloc) (ids : List Nat) (j : Nat) :
    ((transferAll st a ids).1.getD j default).value = (st.getD j default).value := by
  induction ids generalizing st a with
  | nil => rfl
  | cons i rest ih =>
    simp only [transferAll]
    rw [ih, transfer_value]

theorem transferAll_acct (st : List Ballot) (a : Alloc) (ids : List Nat) :
    allocSum (transferAll st a ids).1 (transferAll st a ids).2.1
        + (transferAll st a ids).2.2
      = allocSum st a + scoreOf st ids := by
  induction ids generalizing st a with
  | nil => simp [transferAll, scoreOf]
  | cons i rest ih =>
    simp only [transferAll]
    have h1 := transfer_acct st a i
    have h2 := ih (transfer st a i).1 (transfer st a i).2.1
    have h3 : scoreOf (transfer st a i).1 rest = scoreOf st rest :=
      scoreOf_congr st _ rest (fun j _ => transfer_value st a i j)
    rw [h3] at h2
    have h4 : scoreOf st (i :: rest)
        = (st.getD i default).value + scoreOf st rest := by
      simp [scoreOf]
    rw [h4]
    linarith [h1, h2]

theorem transferAll_flat_mem (st : List Ballot) (a : Alloc) (ids : List Nat)
    (x : Nat) (hx : x ∈ flatIds (transferAll st a ids).2.1) :
    x ∈ flatIds a ∨ x ∈ ids := by
  induction ids generalizing st a with
  | nil => exact Or.inl hx
  | cons i rest ih =>
    simp only [transferAll] at hx
    rcases ih _ _ hx with h | h
    · rcases transfer_flat_mem st a i x h with h2 | h2
      · exact Or.inl h2
      · exact Or.inr (by simp [h2])
    · exact Or.inr (by simp [h])

theorem transferAll_flat_grow (st : List Ballot) (a : Alloc) (ids : List Nat)
    (x : Nat) (hx : x ∈ flatIds a) : x ∈ flatIds (transferAll st a ids).2.1 := by
  induction ids generalizing st a with
  | nil => exact hx
  | cons i rest ih =>
    simp only [transferAll]
    exact ih _ _ (transfer_flat_grow st a i x hx)

theorem transferAll_flat_nodup (st : List Ballot) (a : Alloc) (ids : List Nat)
    (hn : (flatIds a).Nodup) (hd : ∀ x ∈ ids, x ∉ flatIds a) (hids : ids.Nodup) :
    (flatIds (transferAll st a ids).2.1).Nodup := by
  induction ids generalizing st a with
  | nil => exact hn
  | cons i rest ih =>
    simp only [transferAll]
    rw [List.nodup_cons] at hids
    refine ih _ _ (transfer_flat_nodup st a i hn (hd i (by simp))) ?_ hids.2
    intro x hx hmem
    rcases transfer_flat_mem st a i x hmem with h | h
    · exact hd x (by simp [hx]) h
    · exact hids.1 (h ▸ hx)

theorem transferAll_drop_nonneg (st : List Ballot) (a : Alloc) (ids : List Nat)
    (h : storeNonneg st) : 0 ≤ (transferAll st a ids).2.2 := by
  induction ids generalizing st a with
  | nil => exact le_refl 0
  | cons i rest ih =>
    simp only [transferAll]
    have h1 := transfer_drop_nonneg st a i h
    have h2 := ih (transfer st a i).1 (transfer st a i).2.1
      (transfer_storeNonneg st a i h)
    linarith

/-! ## Lemmas about `electTransfer` -/

theorem electTransfer_length (m : ℚ) (st : List Ballot) (a : Alloc) (ids : List Nat) :
    (electTransfer m st a ids).1.length = st.length := by
  induction ids generalizing st a with
  | nil => rfl
  | cons i rest ih =>
    simp only [electTransfer]
    rw [ih, transfer_length, List.length_set]

theorem electTransfer_keys (m : ℚ) (st : List Ballot) (a : Alloc) (ids : List Nat) :
    keys (electTransfer m st a ids).2.1 = keys a := by
  induction ids generalizing st a with
  | nil => rfl
  | cons i rest ih =>
    simp only [electTransfer]
    rw [ih, transfer_keys]

theorem electTransfer_value_notMem (m : ℚ) (st : List Ballot) (a : Alloc)
    (ids : List Nat) (j : Nat) (hj : j ∉ ids) :
    ((electTransfer m st a ids).1.getD j default).value
      = (st.getD j default).value := by
  induction ids generalizing st a with
  | nil => rfl
  | cons i rest ih =>
    simp only [List.mem_cons, not_or] at hj
    simp only [electTransfer]
    rw [ih _ _ hj.2, transfer_value]
    rw [getD_set_other st i j _ (fun hh => hj.1 hh.symm)]

theorem electTransfer_value_mem (m : ℚ) (st : List Ballot) (a : Alloc)
    (ids : List Nat) (hn : ids.Nodup) (hlen : ∀ x ∈ ids, x < st.length) :
    ∀ i ∈ ids, ((electTransfer m st a ids).1.getD i default).value
      = (st.getD i default).value * m := by
  induction ids generalizing st a with
  | nil => intro i hi; simp at hi
  | cons i rest ih =>
    rw [List.nodup_cons] at hn
    intro x hx
    rcases List.mem_cons.mp hx with hx | hx
    · subst hx
      simp only [electTransfer]
      rw [electTransfer_value_notMem _ _ _ _ _ hn.1, transfer_value,
        getD_set_same st x _ (hlen x (by simp))]
    · simp only [electTransfer]
      have hlen' : ∀ y ∈ rest, y <
          ((transfer (st.set i
            { st.getD i default with
              value := (st.getD i default).value * m }) a i).1).length := by
        intro y hy
        rw [transfer_length, List.length_set]
        exact hlen y (by simp [hy])
      have := ih (transfer (st.set i
          { st.getD i default with
            value := (st.getD i default).value * m }) a i).1
        (transfer (st.set i
          { st.getD i default with
            value := (st.getD i default).value * m }) a i).2.1 hn.2 hlen' x hx
      rw [this, transfer_value,
        getD_set_other st i x _ (fun hh => hn.1 (hh ▸ hx))]

theorem electTransfer_acct (m : ℚ) (st : List Ballot) (a : Alloc) (ids : List Nat)
    (hn : ids.Nodup) (hd : ∀ x ∈ ids, x ∉ flatIds a)
    (hlen : ∀ x ∈ ids, x < st.length) :
    allocSum (electTransfer m st a ids).1 (electTransfer m st a ids).2.1
        + (electTransfer m st a ids).2.2
      = allocSum st a + m * scoreOf st ids := by
  induction ids generalizing st a with
  | nil => simp [electTransfer, scoreOf]
  | cons i rest ih =>
    rw [List.nodup_cons] at hn
    simp only [electTransfer]
    have hi : i < st.length := hlen i (by simp)
    have hset : ∀ j, j ≠ i →
        (((st.set i { st.getD i default with
          value := (st.getD i default).value * m }).getD j default)).value
        = (st.getD j default).value := by
      intro j hj
      rw [getD_set_other st i j _ (fun hh => hj hh.symm)]
    have hseti :
        (((st.set i { st.getD i default with
          value := (st.getD i default).value * m }).getD i default)).value
        = (st.getD i default).value * m := by
      rw [getD_set_same st i _ hi]
    have ha0 : allocSum (st.set i { st.getD i default with
        value := (st.getD i default).value * m }) a = allocSum st a := by
      apply allocSum_congr
      intro k hk
      exact hset k (fun hh => hd i (by simp) (hh ▸ hk))
    have h1 := transfer_acct (st.set i { st.getD i default with
        value := (st.getD i default).value * m }) a i
    rw [ha0, hseti] at h1
    have hd' : ∀ x ∈ rest, x ∉ flatIds (transfer (st.set i
        { st.getD i default with
          value := (st.getD i default).value * m }) a i).2.1 := by
      intro x hx hmem
      rcases transfer_flat_mem _ a i x hmem with h | h
      · exact hd x (by simp [hx]) h
      · exact hn.1 (h ▸ hx)
    have hlen' : ∀ x ∈ rest, x < (transfer (st.set i
        { st.getD i default with
          value := (st.getD i default).value * m }) a i).1.length := by
      intro x hx
      rw [transfer_length, List.length_set]
      exact hlen x (by simp [hx])
    have h2 := ih _ _ hn.2 hd' hlen'
    have h3 : scoreOf (transfer (st.set i
        { st.getD i default with
          value := (st.getD i default).value * m }) a i).1 rest
        = scoreOf st rest := by
      apply scoreOf_congr
      intro j hj
      rw [transfer_value, hset j (fun hh => hn.1 (hh ▸ hj))]
    rw [h3] at h2
    have h4 : scoreOf st (i :: rest)
        = (st.getD i default).value + scoreOf st rest := by
      simp [scoreOf]
    rw [h4]
    have hgoal : m * ((st.getD i default).value + scoreOf st rest)
        = (st.getD i default).value * m + m * scoreOf st rest := by ring
    rw [hgoal]
    linarith [h1, h2]

theorem electTransfer_flat_mem (m : ℚ) (st : List Ballot) (a : Alloc)
    (ids : List Nat) (x : Nat)
    (hx : x ∈ flatIds (electTransfer m st a ids).2.1) :
    x ∈ flatIds a ∨ x ∈ ids := by
  induction ids generalizing st a with
  | nil => exact Or.inl hx
  | cons i rest ih =>
    simp only [electTransfer] at hx
    rcases ih _ _ hx with h | h
    · rcases transfer_flat_mem _ a i x h with h2 | h2
      · exact Or.inl h2
      · exact Or.inr (by simp [h2])
    · exact Or.inr (by simp [h])

theorem electTransfer_flat_grow (m : ℚ) (st : List Ballot) (a : Alloc)
    (ids : List Nat) (x : Nat) (hx : x ∈ flatIds a) :
    x ∈ flatIds (electTransfer m st a ids).2.1 := by
  induction ids generalizing st a with
  | nil => exact hx
  | cons i rest ih =>
    simp only [electTransfer]
    exact ih _ _ (transfer_flat_grow _ a i x hx)

theorem electTransfer_flat_nodup (m : ℚ) (st : List Ballot) (a : Alloc)
    (ids : List Nat) (hn : (flatIds a).Nodup)
    (hd : ∀ x ∈ ids, x ∉ flatIds a) (hids : ids.Nodup) :
    (flatIds (electTransfer m st a ids).2.1).Nodup := by
  induction ids generalizing st a with
  | nil => exact hn
  | cons i rest ih =>
    simp only [electTransfer]
    rw [List.nodup_cons] at hids
    refine ih _ _ (transfer_flat_nodup _ a i hn (hd i (by simp))) ?_ hids.2
    intro x hx hmem
    rcases transfer_flat_mem _ a i x hmem with h | h
    · exact hd x (by simp [hx]) h
    · exact hids.1 (h ▸ hx)

theorem set_storeNonneg (st : List Ballot) (i : Nat) (b : Ballot)
    (h : storeNonneg st) (hb : 0 ≤ b.value) : storeNonneg (st.set i b) := by
  intro j
  by_cases hij : i = j
  · subst hij
    by_cases hi : i < st.length
    · rw [getD_set_same st i b hi]; exact hb
    · rw [set_oob st i b (by omega)]; exact h i
  · rw [getD_set_other st i j b hij]; exact h j

theorem electTransfer_storeNonneg (m : ℚ) (st : List Ballot) (a : Alloc)
    (ids : List Nat) (hm : 0 ≤ m) (h : storeNonneg st) :
    storeNonneg (electTransfer m st a ids).1 := by
  induction ids generalizing st a with
  | nil => exact h
  | cons i rest ih =>
    simp only [electTransfer]
    exact ih _ _ (transfer_storeNonneg _ a i
      (set_storeNonneg st i _ h (mul_nonneg (h i) hm)))

theorem electTransfer_drop_nonneg (m : ℚ) (st : List Ballot) (a : Alloc)
    (ids : List Nat) (hm : 0 ≤ m) (h : storeNonneg st) :
    0 ≤ (electTransfer m st a ids).2.2 := by
  induction ids generalizing st a with
  | nil => exact le_refl 0
  | cons i rest ih =>
    simp only [electTransfer]
    have hs0 : storeNonneg (st.set i { st.getD i default with
        value := (st.getD i default).value * m }) :=
      set_storeNonneg st i _ h (mul_nonneg (h i) hm)
    have h1 := transfer_drop_nonneg _ a i hs0
    have h2 := ih (transfer (st.set i { st.getD i default with
        value := (st.getD i default).value * m }) a i).1
      (transfer (st.set i { st.getD i default with
        value := (st.getD i default).value * m }) a i).2.1
      (transfer_storeNonneg _ a i hs0)
    linarith

/-! ## State-level invariants -/

theorem bucket_sub_flat (a : Alloc) (c : Candidate) :
    ∀ x ∈ bucket a c, x ∈ flatIds a := by
  induction a with
  | nil => intro x hx; simp [bucket] at hx
  | cons p rest ih =>
    intro x hx
    by_cases hp : p.1 = c
    · rw [show bucket (p :: rest) c = p.2 by simp [bucket, hp]] at hx
      simp [flatIds, hx]
    · rw [show bucket (p :: rest) c = bucket rest c by simp [bucket, hp]] at hx
      simp only [flatIds, List.flatMap_cons, List.mem_append]
      exact Or.inr (ih x hx)

theorem flat_eraseKey_sub (a : Alloc) (c : Candidate) :
    ∀ x ∈ flatIds (eraseKey a c), x ∈ flatIds a := by
  induction a with
  | nil => intro x hx; simp [eraseKey, flatIds] at hx
  | cons p rest ih =>
    intro x hx
    by_cases hp : p.1 = c
    · rw [show eraseKey (p :: rest) c = eraseKey rest c by simp [eraseKey, hp]] at hx
      simp only [flatIds, List.flatMap_cons, List.mem_append]
      exact Or.inr (ih x hx)
    · rw [show eraseKey (p :: rest) c = p :: eraseKey rest c by simp [eraseKey, hp]] at hx
      simp only [flatIds, List.flatMap_cons, List.mem_append] at hx ⊢
      rcases hx with hx | hx
      · exact Or.inl hx
      · exact Or.inr (ih x hx)

theorem bucket_flat_facts (a : Alloc) (c : Candidate)
    (hk : (keys a).Nodup) (hc : c ∈ keys a) (hf : (flatIds a).Nodup) :
    (bucket a c).Nodup ∧ (flatIds (eraseKey a c)).Nodup ∧
      (∀ x ∈ bucket a c, x ∉ flatIds (eraseKey a c)) := by
  have hperm := flat_split_perm a c hk hc
  have h2 : (bucket a c ++ flatIds (eraseKey a c)).Nodup := hperm.nodup_iff.mp hf
  rw [List.nodup_append] at h2
  exact ⟨h2.1, h2.2.1, fun x hx hmem => h2.2.2 hx hmem⟩

/-! ## Lemmas about `eliminate` -/

theorem eliminate_elected (s : ElecState) (c : Candidate) :
    (eliminate s c).elected = s.elected := rfl

theorem eliminate_log (s : ElecState) (c : Candidate) :
    (eliminate s c).log = s.log := rfl

theorem eliminate_rounds (s : ElecState) (c : Candidate) :
    (eliminate s c).rounds = s.rounds := rfl

theorem eliminate_keys (s : ElecState) (c : Candidate) :
    keys (eliminate s c).alloc = keys (eraseKey s.alloc c) := by
  unfold eliminate
  exact transferAll_keys _ _ _

theorem eliminate_store_length (s : ElecState) (c : Candidate) :
    (eliminate s c).store.length = s.store.length := by
  unfold eliminate
  exact transferAll_length _ _ _

theorem eliminate_value (s : ElecState) (c : Candidate) (j : Nat) :
    ((eliminate s c).store.getD j default).value
      = (s.store.getD j default).value := by
  unfold eliminate
  exact transferAll_value _ _ _ j

theorem eliminate_flat_sub (s : ElecState) (c : Candidate) :
    ∀ x ∈ flatIds (eliminate s c).alloc, x ∈ flatIds s.alloc := by
  intro x hx
  unfold eliminate at hx
  rcases transferAll_flat_mem _ _ _ x hx with h | h
  · exact flat_eraseKey_sub s.alloc c x h
  · exact bucket_sub_flat s.alloc c x h

theorem eliminate_acct (s : ElecState) (c : Candidate)
    (hk : (keys s.alloc).Nodup) (hc : c ∈ keys s.alloc) :
    allocSum (eliminate s c).store (eliminate s c).alloc + (eliminate s c).dropped
      = allocSum s.store s.alloc + s.dropped := by
  unfold eliminate
  have h1 := transferAll_acct s.store (eraseKey s.alloc c) (bucket s.alloc c)
  have h2 := allocSum_split s.store s.alloc c hk hc
  dsimp only
  linarith

theorem eliminate_wfa (s : ElecState) (c : Candidate)
    (hw : WFA s) (hc : c ∈ keys s.alloc) : WFA (eliminate s c) := by
  obtain ⟨hfacts1, hfacts2, hfacts3⟩ :=
    bucket_flat_facts s.alloc c hw.keysNodup hc hw.idsNodup
  refine ⟨?_, ?_, ?_⟩
  · rw [eliminate_keys]
    exact keys_eraseKey_nodup s.alloc c hw.keysNodup
  · unfold eliminate
    exact transferAll_flat_nodup _ _ _ hfacts2
      (fun x hx hmem => hfacts3 x hx hmem) hfacts1
  · intro i hi
    rw [eliminate_store_length]
    exact hw.idsLt i (eliminate_flat_sub s c i hi)

theorem eliminate_drop_mono (s : ElecState) (c : Candidate)
    (h : storeNonneg s.store) : s.dropped ≤ (eliminate s c).dropped := by
  unfold eliminate
  have := transferAll_drop_nonneg s.store (eraseKey s.alloc c) (bucket s.alloc c) h
  dsimp only
  linarith

theorem eliminate_storeNonneg (s : ElecState) (c : Candidate)
    (h : storeNonneg s.store) : storeNonneg (eliminate s c).store := by
  intro j
  rw [eliminate_value]
  exact h j

/-! ## Lemmas about `electOne` -/

theorem spentSum_append (l : List ElectRec) (r : ElectRec) :
    spentSum (l ++ [r]) = spentSum l + r.spent := by
  simp [spentSum]

theorem electOne_elected (quota : ℚ) (sc : List (Candidate × ℚ))
    (s : ElecState) (c : Candidate) :
    (electOne quota sc s c).elected = s.elected ++ [c] := by
  unfold electOne
  dsimp only
  split
  · rfl
  · rfl

theorem electOne_rounds (quota : ℚ) (sc : List (Candidate × ℚ))
    (s : ElecState) (c : Candidate) :
    (electOne quota sc s c).rounds = s.rounds := by
  unfold electOne
  dsimp only
  split
  · rfl
  · rfl

theorem electOne_rngK (quota : ℚ) (sc : List (Candidate × ℚ))
    (s : ElecState) (c : Candidate) :
    (electOne quota sc s c).rngK = s.rngK := by
  unfold electOne
  dsimp only
  split
  · rfl
  · rfl

theorem electOne_store_length (quota : ℚ) (sc : List (Candidate × ℚ))
    (s : ElecState) (c : Candidate) :
    (electOne quota sc s c).store.length = s.store.length := by
  unfold electOne
  dsimp only
  split
  · rfl
  · exact electTransfer_length _ _ _ _

theorem electOne_keys (quota : ℚ) (sc : List (Candidate × ℚ))
    (s : ElecState) (c : Candidate) :
    keys (electOne quota sc s c).alloc = keys (eraseKey s.alloc c) := by
  unfold electOne
  dsimp only
  split
  · rfl
  · exact electTransfer_keys _ _ _ _

theorem electOne_flat_sub (quota : ℚ) (sc : List (Candidate × ℚ))
    (s : ElecState) (c : Candidate) :
    ∀ x ∈ flatIds (electOne quota sc s c).alloc, x ∈ flatIds s.alloc := by
  intro x hx
  revert hx
  unfold electOne
  dsimp only
  split
  · intro hx
    exact flat_eraseKey_sub s.alloc c x hx
  · intro hx
    rcases electTransfer_flat_mem _ _ _ _ x hx with h | h
    · exact flat_eraseKey_sub s.alloc c x h
    · exact bucket_sub_flat s.alloc c x h

theorem electOne_acct (quota : ℚ) (sc : List (Candidate × ℚ))
    (s : ElecState) (c : Candidate) (hw : WFA s) (hc : c ∈ keys s.alloc) :
    allocSum (electOne quota sc s c).store (electOne quota sc s c).alloc
        + (electOne quota sc s c).dropped + spentSum (electOne quota sc s c).log
      = allocSum s.store s.alloc + s.dropped + spentSum s.log := by
  obtain ⟨hb1, hb2, hb3⟩ := bucket_flat_facts s.alloc c hw.keysNodup hc hw.idsNodup
  have hsplit := allocSum_split s.store s.alloc c hw.keysNodup hc
  unfold electOne
  dsimp only
  split
  · next heq =>
    rw [spentSum_append]
    dsimp only
    linarith
  · next heq =>
    have hlen : ∀ x ∈ bucket s.alloc c, x < s.store.length :=
      fun x hx => hw.idsLt x (bucket_sub_flat s.alloc c x hx)
    have hacct := electTransfer_acct ((lookupScore sc c - quota) / quota)
      s.store (eraseKey s.alloc c) (bucket s.alloc c) hb1 hb3 hlen
    rw [spentSum_append]
    dsimp only
    have hms : ((lookupScore sc c - quota) / quota) * scoreOf s.store (bucket s.alloc c)
        = scoreOf s.store (bucket s.alloc c) * ((lookupScore sc c - quota) / quota) := by
      ring
    linarith [hacct]

theorem electOne_wfa (quota : ℚ) (sc : List (Candidate × ℚ))
    (s : ElecState) (c : Candidate) (hw : WFA s) (hc : c ∈ keys s.alloc) :
    WFA (electOne quota sc s c) := by
  obtain ⟨hb1, hb2, hb3⟩ := bucket_flat_facts s.alloc c hw.keysNodup hc hw.idsNodup
  refine ⟨?_, ?_, ?_⟩
  · rw [electOne_keys]
    exact keys_eraseKey_nodup s.alloc c hw.keysNodup
  · revert hb1 hb2 hb3
    unfold electOne
    dsimp only
    split
    · intro hb1 hb2 hb3
      exact hb2
    · intro hb1 hb2 hb3
      exact electTransfer_flat_nodup _ _ _ _ hb2 hb3 hb1
  · intro i hi
    rw [electOne_store_length]
    exact hw.idsLt i (electOne_flat_sub quota sc s c i hi)

theorem electOne_storeNonneg (quota : ℚ) (sc : List (Candidate × ℚ))
    (s : ElecState) (c : Candidate) (hq : 0 < quota)
    (hs : quota ≤ lookupScore sc c) (h : storeNonneg s.store) :
    storeNonneg (electOne quota sc s c).store := by
  unfold electOne
  dsimp only
  split
  · exact h
  · exact electTransfer_storeNonneg _ _ _ _
      (div_nonneg (by linarith) (le_of_lt hq)) h

theorem electOne_drop_mono (quota : ℚ) (sc : List (Candidate × ℚ))
    (s : ElecState) (c : Candidate) (hq : 0 < quota)
    (hs : quota ≤ lookupScore sc c) (h : storeNonneg s.store) :
    s.dropped ≤ (electOne quota sc s c).dropped := by
  unfold electOne
  dsimp only
  split
  · exact le_refl _
  · have := electTransfer_drop_nonneg ((lookupScore sc c - quota) / quota)
      s.store (eraseKey s.alloc c) (bucket s.alloc c)
      (div_nonneg (by linarith) (le_of_lt hq)) h
    dsimp only
    linarith

/-! ## Lemmas about `electAll` -/

theorem electAll_elected (quota : ℚ) (sc : List (Candidate × ℚ))
    (s : ElecState) (l : List Candidate) :
    (electAll quota sc s l).elected = s.elected ++ l := by
  induction l generalizing s with
  | nil => simp [electAll]
  | cons c rest ih =>
    simp only [electAll]
    rw [ih, electOne_elected]
    simp

theorem electAll_rounds (quota : ℚ) (sc : List (Candidate × ℚ))
    (s : ElecState) (l : List Candidate) :
    (electAll quota sc s l).rounds = s.rounds := by
  induction l generalizing s with
  | nil => rfl
  | cons c rest ih =>
    simp only [electAll]
    rw [ih, electOne_rounds]

theorem electAll_rngK (quota : ℚ) (sc : List (Candidate × ℚ))
    (s : ElecState) (l : List Candidate) :
    (electAll quota sc s l).rngK = s.rngK := by
  induction l generalizing s with
  | nil => rfl
  | cons c rest ih =>
    simp only [electAll]
    rw [ih, electOne_rngK]

theorem electAll_store_length (quota : ℚ) (sc : List (Candidate × ℚ))
    (s : ElecState) (l : List Candidate) :
    (electAll quota sc s l).store.length = s.store.length := by
  induction l generalizing s with
  | nil => rfl
  | cons c rest ih =>
    simp only [electAll]
    rw [ih, electOne_store_length]

theorem electAll_keys_mem (quota : ℚ) (sc : List (Candidate × ℚ))
    (s : ElecState) (l : List Candidate) (x : Candidate) :
    x ∈ keys (electAll quota sc s l).alloc ↔ x ∈ keys s.alloc ∧ x ∉ l := by
  induction l generalizing s with
  | nil => simp [electAll]
  | cons c rest ih =>
    simp only [electAll]
    rw [ih]
    constructor
    · rintro ⟨hx, hrest⟩
      rw [electOne_keys, keys_eraseKey_mem] at hx
      exact ⟨hx.1, by simp [hx.2, hrest]⟩
    · rintro ⟨hx, hnot⟩
      simp only [List.mem_cons, not_or] at hnot
      refine ⟨?_, hnot.2⟩
      rw [electOne_keys, keys_eraseKey_mem]
      exact ⟨hx, hnot.1⟩

theorem electAll_flat_sub (quota : ℚ) (sc : List (Candidate × ℚ))
    (s : ElecState) (l : List Candidate) :
    ∀ x ∈ flatIds (electAll quota sc s l).alloc, x ∈ flatIds s.alloc := by
  induction l generalizing s with
  | nil => intro x hx; exact hx
  | cons c rest ih =>
    intro x hx
    simp only [electAll] at hx
    exact electOne_flat_sub quota sc s c x (ih _ x hx)

theorem electAll_wfa (quota : ℚ) (sc : List (Candidate × ℚ))
    (s : ElecState) (l : List Candidate) (hl : l.Nodup)
    (hsub : ∀ c ∈ l, c ∈ keys s.alloc) (hw : WFA s) :
    WFA (electAll quota sc s l) := by
  induction l generalizing s with
  | nil => exact hw
  | cons c rest ih =>
    rw [List.nodup_cons] at hl
    simp only [electAll]
    refine ih _ hl.2 ?_ (electOne_wfa quota sc s c hw (hsub c (by simp)))
    intro x hx
    rw [electOne_keys, keys_eraseKey_mem]
    exact ⟨hsub x (by simp [hx]), fun hh => hl.1 (hh ▸ hx)⟩

theorem electAll_acct (quota : ℚ) (sc : List (Candidate × ℚ))
    (s : ElecState) (l : List Candidate) (hl : l.Nodup)
    (hsub : ∀ c ∈ l, c ∈ keys s.alloc) (hw : WFA s) :
    allocSum (electAll quota sc s l).store (electAll quota sc s l).alloc
        + (electAll quota sc s l).dropped + spentSum (electAll quota sc s l).log
      = allocSum s.store s.alloc + s.dropped + spentSum s.log := by
  induction l generalizing s with
  | nil => rfl
  | cons c rest ih =>
    rw [List.nodup_cons] at hl
    simp only [electAll]
    have hnext : ∀ x ∈ rest, x ∈ keys (electOne quota sc s c).alloc := by
      intro x hx
      rw [electOne_keys, keys_eraseKey_mem]
      exact ⟨hsub x (by simp [hx]), fun hh => hl.1 (hh ▸ hx)⟩
    rw [ih _ hl.2 hnext (electOne_wfa quota sc s c hw (hsub c (by simp)))]
    exact electOne_acct quota sc s c hw (hsub c (by simp))

theorem electAll_alloc_length (quota : ℚ) (sc : List (Candidate × ℚ))
    (s : ElecState) (l : List Candidate) (hl : l.Nodup)
    (hsub : ∀ c ∈ l, c ∈ keys s.alloc) (hw : WFA s) :
    (electAll quota sc s l).alloc.length + l.length = s.alloc.length := by
  induction l generalizing s with
  | nil => rfl
  | cons c rest ih =>
    rw [List.nodup_cons] at hl
    simp only [electAll]
    have hnext : ∀ x ∈ rest, x ∈ keys (electOne quota sc s c).alloc := by
      intro x hx
      rw [electOne_keys, keys_eraseKey_mem]
      exact ⟨hsub x (by simp [hx]), fun hh => hl.1 (hh ▸ hx)⟩
    have h1 := ih _ hl.2 hnext (electOne_wfa quota sc s c hw (hsub c (by simp)))
    have h2 : (electOne quota sc s c).alloc.length + 1 = s.alloc.length := by
      have hkl : keys (electOne quota sc s c).alloc = keys (eraseKey s.alloc c) :=
        electOne_keys quota sc s c
      have hlen1 : (electOne quota sc s c).alloc.length
          = (keys (electOne quota sc s c).alloc).length := by simp [keys]
      have hlen2 : (eraseKey s.alloc c).length = (keys (eraseKey s.alloc c)).length := by
        simp [keys]
      rw [hlen1, hkl, ← hlen2]
      exact length_eraseKey_of_nodup s.alloc c hw.keysNodup (hsub c (by simp))
    simp only [List.length_cons]
    omega

theorem electAll_storeNonneg (quota : ℚ) (sc : List (Candidate × ℚ))
    (s : ElecState) (l : List Candidate) (hq : 0 < quota)
    (hscores : ∀ c ∈ l, quota ≤ lookupScore sc c) (h : storeNonneg s.store) :
    storeNonneg (electAll quota sc s l).store := by
  induction l generalizing s with
  | nil => exact h
  | cons c rest ih =>
    simp only [electAll]
    exact ih _ (fun x hx => hscores x (by simp [hx]))
      (electOne_storeNonneg quota sc s c hq (hscores c (by simp)) h)

theorem electAll_drop_mono (quota : ℚ) (sc : List (Candidate × ℚ))
    (s : ElecState) (l : List Candidate) (hq : 0 < quota)
    (hscores : ∀ c ∈ l, quota ≤ lookupScore sc c) (h : storeNonneg s.store) :
    s.dropped ≤ (electAll quota sc s l).dropped := by
  induction l generalizing s with
  | nil => exact le_refl _
  | cons c rest ih =>
    simp only [electAll]
    calc s.dropped ≤ (electOne quota sc s c).dropped :=
          electOne_drop_mono quota sc s c hq (hscores c (by simp)) h
      _ ≤ _ := ih _ (fun x hx => hscores x (by simp [hx]))
          (electOne_storeNonneg quota sc s c hq (hscores c (by simp)) h)

/-! ## Facts about score snapshots, minima and tie-breaking -/

theorem lookupScore_mem (sc : List (Candidate × ℚ)) (c : Candidate) (v : ℚ)
    (hn : (sc.map (·.1)).Nodup) (hmem : (c, v) ∈ sc) : lookupScore sc c = v := by
  induction sc with
  | nil => simp at hmem
  | cons p rest ih =>
    rw [List.map_cons, List.nodup_cons] at hn
    rcases List.mem_cons.mp hmem with hp | hp
    · rw [← hp]
      simp [lookupScore]
    · have hne : p.1 ≠ c := by
        intro hh
        exact hn.1 (hh ▸ (List.mem_map.mpr ⟨(c, v), hp, rfl⟩))
      simp only [lookupScore, if_neg hne]
      exact ih hn.2 hp

theorem mem_map_fst_filter (sc : List (Candidate × ℚ)) (p : Candidate × ℚ → Bool)
    (c : Candidate) (hc : c ∈ (sc.filter p).map (·.1)) :
    ∃ v, (c, v) ∈ sc ∧ p (c, v) = true := by
  rcases List.mem_map.mp hc with ⟨q, hq, hfst⟩
  have hmem := List.mem_of_mem_filter hq
  have hp := List.of_mem_filter hq
  exact ⟨q.2, by rw [← hfst]; simpa using hmem, by rw [← hfst]; simpa using hp⟩

theorem filter_map_fst_sublist (sc : List (Candidate × ℚ)) (p : Candidate × ℚ → Bool) :
    List.Sublist ((sc.filter p).map (·.1)) (sc.map (·.1)) :=
  (List.filter_sublist sc).map (·.1)

theorem rq_subset_keys (st : List Ballot) (a : Alloc) (p : Candidate × ℚ → Bool)
    (c : Candidate) (hc : c ∈ ((scoresList st a).filter p).map (·.1)) :
    c ∈ keys a := by
  have := (filter_map_fst_sublist (scoresList st a) p).mem hc
  rw [scoresList_keys] at this
  exact this

theorem rq_nodup (st : List Ballot) (a : Alloc) (p : Candidate × ℚ → Bool)
    (hn : (keys a).Nodup) :
    (((scoresList st a).filter p).map (·.1)).Nodup := by
  refine List.Nodup.sublist (filter_map_fst_sublist (scoresList st a) p) ?_
  rw [scoresList_keys]
  exact hn

theorem rq_scores (st : List Ballot) (a : Alloc) (quota : ℚ)
    (hn : (keys a).Nodup) (c : Candidate)
    (hc : c ∈ ((scoresList st a).filter (fun p => quota ≤ p.2)).map (·.1)) :
    quota ≤ lookupScore (scoresList st a) c := by
  obtain ⟨v, hmem, hp⟩ := mem_map_fst_filter _ _ c hc
  have hl : lookupScore (scoresList st a) c = v := by
    apply lookupScore_mem _ _ _ _ hmem
    rw [show (scoresList st a).map (·.1) = keys a from scoresList_keys st a]
    exact hn
  rw [hl]
  simpa using hp

theorem foldl_choice_mem {α : Type} (f : α → α → α)
    (hf : ∀ a b, f a b = a ∨ f a b = b) (xs : List α) (x : α) :
    xs.foldl f x = x ∨ xs.foldl f x ∈ xs := by
  induction xs generalizing x with
  | nil => exact Or.inl rfl
  | cons y ys ih =>
    rw [List.foldl_cons]
    rcases ih (f x y) with h | h
    · rcases hf x y with hm | hm
      · left
        rw [h, hm]
      · right
        rw [h, hm]
        simp
    · right
      simp [h]

theorem listMin_mem (l : List ℚ) (h : l ≠ []) : listMin l ∈ l := by
  cases l with
  | nil => exact absurd rfl h
  | cons x xs =>
    simp only [listMin]
    rcases foldl_choice_mem min min_choice xs x with h2 | h2
    · simp [h2]
    · simp [h2]

theorem sortedHead_mem (l : List Candidate) (x : Candidate)
    (h : sortedHead l = some x) : x ∈ l := by
  cases l with
  | nil => simp [sortedHead] at h
  | cons y ys =>
    simp only [sortedHead, Option.some_inj] at h
    have hf : ∀ a b : Candidate,
        (if b < a then b else a) = a ∨ (if b < a then b else a) = b := by
      intro a b
      by_cases hlt : b < a
      · right
        rw [if_pos hlt]
      · left
        rw [if_neg hlt]
    rcases foldl_choice_mem (fun a b => if b < a then b else a) hf ys y with h2 | h2
    · rw [h] at h2
      simp [h2]
    · rw [h] at h2
      simp [h2]

theorem breakTie_mem (strat : TieStrategy) (oracle : Nat → Nat) (k : Nat)
    (tied : List Candidate) (w : Candidate)
    (h : breakTie strat oracle k tied = some w) : w ∈ tied := by
  cases strat with
  | NONE => simp [breakTie] at h
  | RANDOM =>
    simp only [breakTie] at h
    exact List.get?_mem h
  | FIRST_IN_ORDER =>
    simp only [breakTie] at h
    exact sortedHead_mem tied w h

theorem eliminate_alloc_length (s : ElecState) (c : Candidate) :
    (eliminate s c).alloc.length = (eraseKey s.alloc c).length := by
  have h1 : (eliminate s c).alloc.length = (keys (eliminate s c).alloc).length := by
    simp [keys]
  have h2 : (eraseKey s.alloc c).length = (keys (eraseKey s.alloc c)).length := by
    simp [keys]
  rw [h1, eliminate_keys, ← h2]

/-! ## The round step preserves the invariants -/

theorem electAll_stepOk (seats : Nat) (quota : ℚ) (s base : ElecState)
    (l : List Candidate) (hw : WFA s) (hq : 0 < quota) (hl : l.Nodup)
    (hsub : ∀ c ∈ l, c ∈ keys s.alloc)
    (hscores : ∀ c ∈ l, quota ≤ lookupScore (scoresList s.store s.alloc) c)
    (hne : l ≠ [])
    (hcnt : s.elected.length + l.length ≤ seats)
    (hba : base.alloc = s.alloc) (hbs : base.store = s.store)
    (hbe : base.elected = s.elected) (hbl : base.log = s.log)
    (hbd : base.dropped = s.dropped) (hbr : base.rounds = s.rounds + 1) :
    StepOk seats s (electAll quota (scoresList s.store s.alloc) base l) := by
  have hwb : WFA base := by
    rw [show WFA base = WFA base from rfl]
    constructor
    · rw [hba]; exact hw.keysNodup
    · rw [hba]; exact hw.idsNodup
    · rw [hba, hbs]; exact hw.idsLt
  have hsubb : ∀ c ∈ l, c ∈ keys base.alloc := by rw [hba]; exact hsub
  refine ⟨?_, ?_, ?_, ?_, ?_, ?_, ?_, ?_, ?_⟩
  · exact electAll_wfa quota _ base l hl hsubb hwb
  · rw [electAll_store_length, hbs]
  · intro x hx
    have := electAll_flat_sub quota (scoresList s.store s.alloc) base l x hx
    rw [hba] at this
    exact this
  · intro x hx
    have := ((electAll_keys_mem quota (scoresList s.store s.alloc) base l x).mp hx).1
    rw [hba] at this
    exact this
  · have h := electAll_acct quota (scoresList s.store s.alloc) base l hl hsubb hwb
    rw [hba, hbs, hbl, hbd] at h
    exact h
  · intro h
    have := electAll_storeNonneg quota (scoresList s.store s.alloc) base l hq hscores
      (by rw [hbs]; exact h)
    exact this
  · intro h
    have := electAll_drop_mono quota (scoresList s.store s.alloc) base l hq hscores
      (by rw [hbs]; exact h)
    rw [hbd] at this
    exact this
  · intro hel
    have hlen := electAll_alloc_length quota (scoresList s.store s.alloc) base l hl hsubb hwb
    have helc := electAll_elected quota (scoresList s.store s.alloc) base l
    rw [hbe] at helc
    rw [hba] at hlen
    rw [helc]
    have hlpos : 1 ≤ l.length := by
      cases l with
      | nil => exact absurd rfl hne
      | cons c rest => simp
    rw [List.length_append]
    omega
  · rw [electAll_rounds, hbr]

theorem eliminate_stepOk (seats : Nat) (s base : ElecState) (e : Candidate)
    (hw : WFA s) (he : e ∈ keys s.alloc)
    (hba : base.alloc = s.alloc) (hbs : base.store = s.store)
    (hbe : base.elected = s.elected) (hbl : base.log = s.log)
    (hbd : base.dropped = s.dropped) (hbr : base.rounds = s.rounds + 1) :
    StepOk seats s (eliminate base e) := by
  have hwb : WFA base := by
    constructor
    · rw [hba]; exact hw.keysNodup
    · rw [hba]; exact hw.idsNodup
    · rw [hba, hbs]; exact hw.idsLt
  have heb : e ∈ keys base.alloc := by rw [hba]; exact he
  refine ⟨?_, ?_, ?_, ?_, ?_, ?_, ?_, ?_, ?_⟩
  · exact eliminate_wfa base e hwb heb
  · rw [eliminate_store_length, hbs]
  · intro x hx
    have := eliminate_flat_sub base e x hx
    rw [hba] at this
    exact this
  · intro x hx
    rw [eliminate_keys, keys_eraseKey_mem, hba] at hx
    exact hx.1
  · have h := eliminate_acct base e hwb.keysNodup heb
    rw [hba, hbs, hbd] at h
    rw [eliminate_log, hbl]
    linarith
  · intro h
    have := eliminate_storeNonneg base e (by rw [hbs]; exact h)
    exact this
  · intro h
    have := eliminate_drop_mono base e (by rw [hbs]; exact h)
    rw [hbd] at this
    exact this
  · intro hel
    rw [eliminate_elected, hbe]
    have h1 : (eliminate base e).alloc.length + 1 = s.alloc.length := by
      rw [eliminate_alloc_length, hba]
      exact length_eraseKey_of_nodup s.alloc e hw.keysNodup he
    omega
  · rw [eliminate_rounds, hbr]

theorem default_stepOk (seats : Nat) (s : ElecState) (hw : WFA s)
    (hne : s.alloc.length ≠ 0)
    (hcnt : s.alloc.length ≤ seats - s.elected.length) :
    StepOk seats s
      { s with elected := s.elected ++ keys s.alloc, rounds := s.rounds + 1 } := by
  refine ⟨⟨hw.keysNodup, hw.idsNodup, hw.idsLt⟩, rfl, fun x hx => hx, fun x hx => hx,
    rfl, fun h => h, fun _ => le_refl _, ?_, rfl⟩
  intro hel
  have hkl : (keys s.alloc).length = s.alloc.length := by simp [keys]
  simp only [List.length_append, hkl]
  omega

theorem headD_mem (l : List Candidate) (d : Candidate) (h : l ≠ []) :
    l.headD d ∈ l := by
  cases l with
  | nil => exact absurd rfl h
  | cons x xs => simp

theorem lowest_ne (sc : List (Candidate × ℚ)) (hsc : sc ≠ []) :
    (sc.filter (fun p => p.2 = listMin (sc.map (·.2)))).map (·.1) ≠ [] := by
  have h1 : listMin (sc.map (·.2)) ∈ sc.map (·.2) :=
    listMin_mem _ (by simpa using hsc)
  rcases List.mem_map.mp h1 with ⟨q, hq, hq2⟩
  have h2 : q ∈ sc.filter (fun p => p.2 = listMin (sc.map (·.2))) :=
    List.mem_filter.mpr ⟨hq, by simp [hq2]⟩
  exact List.ne_nil_of_mem (List.mem_map.mpr ⟨q, h2, rfl⟩)

theorem scoresList_ne (st : List Ballot) (a : Alloc) (h : ¬a.length = 0) :
    scoresList st a ≠ [] := by
  intro hcon
  have : (scoresList st a).length = a.length := by simp [scoresList]
  rw [hcon] at this
  simp at this
  omega

/-- A successfully executed round satisfies `StepOk`. -/
theorem roundBody_step (seats : Nat) (quota : ℚ) (strat : TieStrategy)
    (oracle : Nat → Nat) (noDefaulting : Bool) (s s' : ElecState)
    (hw : WFA s) (hq : 0 < quota) (hel : s.elected.length < seats)
    (h : roundBody seats quota strat oracle noDefaulting s = .inr s') :
    StepOk seats s s' := by
  unfold roundBody at h
  dsimp only at h
  split at h
  · exact Sum.noConfusion h
  next hne0 =>
    split at h
    next hrqne =>
      split at h
      next hlt =>
        split at h
        · exact Sum.noConfusion h
        next w hwti =>
          cases h
          have hwmem := breakTie_mem _ _ _ _ _ hwti
          apply electAll_stepOk seats quota s
            { s with rngK := s.rngK + 1, rounds := s.rounds + 1 } [w] hw hq (by simp)
            (by intro c hc
                rw [List.mem_singleton] at hc
                subst hc
                exact rq_subset_keys s.store s.alloc _ c hwmem)
            (by intro c hc
                rw [List.mem_singleton] at hc
                subst hc
                exact rq_scores s.store s.alloc quota hw.keysNodup c hwmem)
            (by simp) (by simp; omega) rfl rfl rfl rfl rfl rfl
      next hnlt =>
        cases h
        apply electAll_stepOk seats quota s
          { s with rounds := s.rounds + 1 } _ hw hq
          (rq_nodup s.store s.alloc _ hw.keysNodup)
          (fun c hc => rq_subset_keys s.store s.alloc _ c hc)
          (fun c hc => rq_scores s.store s.alloc quota hw.keysNodup c hc)
          hrqne (by omega) rfl rfl rfl rfl rfl rfl
    next hrq =>
      split at h
      next hle =>
        split at h
        · exact Sum.noConfusion h
        next hnd =>
          cases h
          exact default_stepOk seats s hw hne0 hle
      next hgt =>
        split at h
        next h1lt =>
          split at h
          · exact Sum.noConfusion h
          next e he =>
            cases h
            have hemem := breakTie_mem _ _ _ _ _ he
            apply eliminate_stepOk seats s
              { s with rngK := s.rngK + 1, rounds := s.rounds + 1 } e hw
              (rq_subset_keys s.store s.alloc _ e hemem)
              rfl rfl rfl rfl rfl rfl
        next hn1 =>
          cases h
          have hlne := lowest_ne (scoresList s.store s.alloc)
            (scoresList_ne s.store s.alloc hne0)
          have hhd := headD_mem _ "" hlne
          apply eliminate_stepOk seats s
            { s with rounds := s.rounds + 1 } _ hw
            (rq_subset_keys s.store s.alloc _ _ hhd)
            rfl rfl rfl rfl rfl rfl

/-! ## Loop-level invariants -/

theorem Reach.self (s : ElecState) (hw : WFA s) : Reach s s :=
  ⟨hw, Eq.refl _, fun _ hx => hx, fun _ hx => hx, Eq.refl _, fun h => h, fun _ => le_refl _⟩

theorem StepOk.toReach {seats : Nat} {s s' : ElecState} (h : StepOk seats s s') :
    Reach s s' :=
  ⟨h.wfa, h.storeLen, h.flatSub, h.keysSub, h.acct, h.nonneg, h.dropMono⟩

theorem Reach.trans {s s' s'' : ElecState} (h1 : Reach s s') (h2 : Reach s' s'') :
    Reach s s'' where
  wfa := h2.wfa
  storeLen := h2.storeLen.trans h1.storeLen
  flatSub := fun x hx => h1.flatSub x (h2.flatSub x hx)
  keysSub := fun x hx => h1.keysSub x (h2.keysSub x hx)
  acct := h2.acct.trans h1.acct
  nonneg := fun h => h2.nonneg (h1.nonneg h)
  dropMono := fun h => (h1.dropMono h).trans (h2.dropMono (h1.nonneg h))

/-- Whatever the loop reaches is `Reach`-related to the start state. -/
theorem loop_reach (seats : Nat) (quota : ℚ) (strat : TieStrategy)
    (oracle : Nat → Nat) (noDefaulting : Bool) :
    ∀ (fuel : Nat) (s : ElecState), WFA s → 0 < quota →
      Reach s (loop seats quota strat oracle noDefaulting fuel s).state := by
  intro fuel
  induction fuel with
  | zero => intro s hw _; exact Reach.self s hw
  | succ fuel ih =>
    intro s hw hq
    simp only [loop]
    split
    next hel =>
      cases hrb : roundBody seats quota strat oracle noDefaulting s with
      | inl e => exact Reach.self s hw
      | inr s' =>
        have hstep := roundBody_step seats quota strat oracle noDefaulting s s'
          hw hq hel hrb
        exact hstep.toReach.trans (ih s' hstep.wfa hq)
    next hel => exact Reach.self s hw

/-- With fuel exceeding `|allocation| + (seats − |elected|)`, the loop never
runs out of fuel. -/
theorem loop_fuel_enough (seats : Nat) (quota : ℚ) (strat : TieStrategy)
    (oracle : Nat → Nat) (noDefaulting : Bool) :
    ∀ (fuel : Nat) (s : ElecState), WFA s → 0 < quota →
      s.alloc.length + (seats - s.elected.length) < fuel →
      ∀ s'' : ElecState,
        loop seats quota strat oracle noDefaulting fuel s ≠ .outOfFuel s'' := by
  intro fuel
  induction fuel with
  | zero => intro s _ _ hm; omega
  | succ fuel ih =>
    intro s hw hq hm s''
    simp only [loop]
    split
    next hel =>
      cases hrb : roundBody seats quota strat oracle noDefaulting s with
      | inl e => simp
      | inr s' =>
        have hstep := roundBody_step seats quota strat oracle noDefaulting s s'
          hw hq hel hrb
        exact ih s' hstep.wfa hq (by have := hstep.measureLt hel; omega) s''
    next hel => simp

/-! ## Seeding and the initial state -/

theorem dedupFirst_aux (l acc : List Candidate) (h : acc.Nodup) :
    (l.foldl (fun acc c => if c ∈ acc then acc else acc ++ [c]) acc).Nodup := by
  induction l generalizing acc with
  | nil => exact h
  | cons c rest ih =>
    simp only [List.foldl_cons]
    by_cases hc : c ∈ acc
    · rw [if_pos hc]
      exact ih acc h
    · rw [if_neg hc]
      refine ih _ ?_
      rw [(List.perm_append_singleton c acc).nodup_iff, List.nodup_cons]
      exact ⟨hc, h⟩

theorem dedupFirst_nodup (l : List Candidate) : (dedupFirst l).Nodup :=
  dedupFirst_aux l [] (List.nodup_nil)

theorem keys_mkAlloc (cands : List Candidate) :
    keys (mkAlloc cands) = dedupFirst cands := by
  simp only [mkAlloc, keys, List.map_map]
  rw [show ((fun x : Candidate × List Nat => x.1) ∘ fun c => (c, ([] : List Nat)))
    = fun c => c from rfl, List.map_id']

theorem flat_mkAlloc (cands : List Candidate) : flatIds (mkAlloc cands) = [] := by
  unfold mkAlloc flatIds
  induction dedupFirst cands with
  | nil => rfl
  | cons c rest ih =>
    simp only [List.map_cons, List.flatMap_cons, List.nil_append]
    exact ih

theorem mkAlloc_length (cands : List Candidate) :
    (mkAlloc cands).length = (dedupFirst cands).length := by
  simp [mkAlloc]

theorem seedList_keys (st : List Ballot) :
    ∀ (ids : List Nat) (a a' : Alloc), seedList st ids a = some a' →
      keys a' = keys a := by
  intro ids
  induction ids with
  | nil =>
    intro a a' h
    simp only [seedList, Option.some_inj] at h
    rw [h]
  | cons i rest ih =>
    intro a a' h
    simp only [seedList] at h
    split at h
    · split at h
      · exact Option.noConfusion h
      · split at h
        · rw [ih _ _ h, keys_appendTo]
        · exact Option.noConfusion h
    · exact ih _ _ h

theorem seedList_alloc_length (st : List Ballot) (ids : List Nat) (a a' : Alloc)
    (h : seedList st ids a = some a') : a'.length = a.length := by
  have h1 : a'.length = (keys a').length := by simp [keys]
  have h2 : a.length = (keys a).length := by simp [keys]
  rw [h1, seedList_keys st ids a a' h, ← h2]

theorem seedList_flat_mem (st : List Ballot) :
    ∀ (ids : List Nat) (a a' : Alloc), seedList st ids a = some a' →
      ∀ x ∈ flatIds a', x ∈ flatIds a ∨
        (x ∈ ids ∧ (st.getD x default).isValid = true) := by
  intro ids
  induction ids with
  | nil =>
    intro a a' h x hx
    simp only [seedList, Option.some_inj] at h
    rw [h]
    exact Or.inl hx
  | cons i rest ih =>
    intro a a' h x hx
    simp only [seedList] at h
    split at h
    next hvalid =>
      split at h
      · exact Option.noConfusion h
      next c tl hcs =>
        split at h
        next hck =>
          rcases ih _ _ h x hx with h2 | h2
          · rcases List.mem_cons.mp
              ((flatIds_appendTo_perm a c i hck).mem_iff.mp h2) with h3 | h3
            · right
              refine ⟨by simp [h3], ?_⟩
              rw [h3]
              exact hvalid
            · exact Or.inl h3
          · right
            exact ⟨by simp [h2.1], h2.2⟩
        · exact Option.noConfusion h
    next hinvalid =>
      rcases ih _ _ h x hx with h2 | h2
      · exact Or.inl h2
      · right
        exact ⟨by simp [h2.1], h2.2⟩

theorem seedList_flat_nodup (st : List Ballot) :
    ∀ (ids : List Nat) (a a' : Alloc), seedList st ids a = some a' →
      (flatIds a).Nodup → ids.Nodup → (∀ x ∈ ids, x ∉ flatIds a) →
      (flatIds a').Nodup := by
  intro ids
  induction ids with
  | nil =>
    intro a a' h hf _ _
    simp only [seedList, Option.some_inj] at h
    rw [h] at hf
    exact hf
  | cons i rest ih =>
    intro a a' h hf hids hd
    rw [List.nodup_cons] at hids
    simp only [seedList] at h
    split at h
    next hvalid =>
      split at h
      · exact Option.noConfusion h
      next c tl hcs =>
        split at h
        next hck =>
          refine ih _ _ h ?_ hids.2 ?_
          · exact ((flatIds_appendTo_perm a c i hck).nodup_iff).mpr
              (by simp [hf, hd i (by simp)])
          · intro x hx hmem
            rcases List.mem_cons.mp
                ((flatIds_appendTo_perm a c i hck).mem_iff.mp hmem) with h3 | h3
            · exact hids.1 (h3 ▸ hx)
            · exact hd x (by simp [hx]) h3
        · exact Option.noConfusion h
    next hinvalid =>
      exact ih _ _ h hf hids.2 (fun x hx => hd x (by simp [hx]))

theorem seedList_allocSum (st : List Ballot) :
    ∀ (ids : List Nat) (a a' : Alloc), seedList st ids a = some a' →
      allocSum st a' = allocSum st a
        + scoreOf st (ids.filter (fun i => (st.getD i default).isValid)) := by
  intro ids
  induction ids with
  | nil =>
    intro a a' h
    simp only [seedList, Option.some_inj] at h
    rw [h]
    simp [scoreOf]
  | cons i rest ih =>
    intro a a' h
    simp only [seedList] at h
    split at h
    next hvalid =>
      split at h
      · exact Option.noConfusion h
      next c tl hcs =>
        split at h
        next hck =>
          have hfc : (i :: rest).filter (fun j => (st.getD j default).isValid)
              = i :: rest.filter (fun j => (st.getD j default).isValid) :=
            List.filter_cons_of_pos hvalid
          rw [ih _ _ h, allocSum_appendTo st a c i hck, hfc]
          rw [show scoreOf st (i :: rest.filter (fun j => (st.getD j default).isValid))
              = (st.getD i default).value
                + scoreOf st (rest.filter (fun j => (st.getD j default).isValid)) from by
                simp [scoreOf]]
          ring
        · exact Option.noConfusion h
    next hinvalid =>
      have hfc : (i :: rest).filter (fun j => (st.getD j default).isValid)
          = rest.filter (fun j => (st.getD j default).isValid) :=
        List.filter_cons_of_neg (by simpa using hinvalid)
      rw [ih _ _ h, hfc]

theorem getD_mem (l : List Ballot) (i : Nat) (h : i < l.length) :
    l.getD i default ∈ l := by
  induction l generalizing i with
  | nil => simp at h
  | cons x xs ih =>
    cases i with
    | zero => simp [List.getD]
    | succ j =>
      rw [List.getD_cons_succ]
      exact List.mem_cons_of_mem x (ih j (by simpa using h))

theorem sum_ones (ids : List Nat) (f : Nat → ℚ) (h : ∀ i ∈ ids, f i = 1) :
    (ids.map f).sum = (ids.length : ℚ) := by
  induction ids with
  | nil => simp
  | cons i rest ih =>
    simp only [List.map_cons, List.sum_cons, List.length_cons]
    rw [h i (by simp), ih (fun j hj => h j (by simp [hj]))]
    push_cast
    ring

theorem validIdx_length (st : List Ballot) :
    ((List.range st.length).filter (fun i => (st.getD i default).isValid)).length
      = countValid st := by
  induction st with
  | nil => simp [countValid]
  | cons b rest ih =>
    rw [show (b :: rest).length = rest.length + 1 from rfl, List.range_succ_eq_map]
    have hmap : ((List.range rest.length).map Nat.succ).filter
        (fun i => ((b :: rest).getD i default).isValid)
        = ((List.range rest.length).filter
            (fun i => (rest.getD i default).isValid)).map Nat.succ := by
      rw [List.filter_map]
      rfl
    by_cases hb : b.isValid
    · rw [List.filter_cons_of_pos (by simpa using hb), hmap]
      simp only [List.length_cons, List.length_map]
      rw [ih]
      have : countValid (b :: rest) = countValid rest + 1 := by
        simp [countValid, List.filter_cons_of_pos (by simpa using hb : (b.isValid) = true)]
      omega
    · rw [List.filter_cons_of_neg (by simpa using hb), hmap]
      simp only [List.length_map]
      rw [ih]
      simp [countValid, List.filter_cons_of_neg (by simpa using hb)]

/-- Everything the seeded initial state of `calculate` satisfies. -/
theorem initState_spec (cands : List Candidate) (ballots : List Ballot)
    (s0 : ElecState) (h : initStateOf cands ballots = some s0) :
    s0.store = ballots ∧ s0.elected = [] ∧ s0.log = [] ∧ s0.dropped = 0 ∧
    s0.rounds = 0 ∧ s0.rngK = 0 ∧ WFA s0 ∧
    s0.alloc.length = (dedupFirst cands).length ∧
    (∀ x ∈ flatIds s0.alloc,
      x < ballots.length ∧ (ballots.getD x default).isValid = true) ∧
    ((∀ b ∈ ballots, b.value = 1) →
      allocSum s0.store s0.alloc = (countValid ballots : ℚ)) := by
  unfold initStateOf at h
  split at h
  · exact Option.noConfusion h
  next a heq =>
    have hs0 := Option.some_inj.mp h
    subst hs0
    have hflat : ∀ x ∈ flatIds a,
        x < ballots.length ∧ (ballots.getD x default).isValid = true := by
      intro x hx
      rcases seedList_flat_mem ballots _ _ _ heq x hx with h2 | h2
      · rw [flat_mkAlloc] at h2
        simp at h2
      · exact ⟨by have := h2.1; simpa using List.mem_range.mp this, h2.2⟩
    refine ⟨rfl, rfl, rfl, rfl, rfl, rfl, ⟨?_, ?_, ?_⟩, ?_, hflat, ?_⟩
    · rw [show keys a = keys (mkAlloc cands) from seedList_keys ballots _ _ _ heq,
        keys_mkAlloc]
      exact dedupFirst_nodup cands
    · refine seedList_flat_nodup ballots _ _ _ heq ?_ (List.nodup_range _) ?_
      · rw [flat_mkAlloc]
        exact List.nodup_nil
      · intro x _ hmem
        rw [flat_mkAlloc] at hmem
        simp at hmem
    · intro i hi
      exact (hflat i hi).1
    · rw [seedList_alloc_length ballots _ _ _ heq, mkAlloc_length]
    · intro hv
      have h1 := seedList_allocSum ballots _ _ _ heq
      have h2 : allocSum ballots (mkAlloc cands) = 0 := by
        rw [allocSum_eq_scoreOf_flat, flat_mkAlloc]
        simp [scoreOf]
      have h3 : scoreOf ballots ((List.range ballots.length).filter
          (fun i => (ballots.getD i default).isValid))
          = (countValid ballots : ℚ) := by
        unfold scoreOf
        rw [sum_ones _ _ ?hones, validIdx_length]
        case hones =>
          intro i hi
          have hlt : i < ballots.length := by
            have := List.mem_range.mp (List.mem_of_mem_filter hi)
            exact this
          exact hv _ (getD_mem ballots i hlt)
      show allocSum ballots a = (countValid ballots : ℚ)
      rw [h1, h2, h3]
      ring

/-! ## Claim C5: the Droop quota bounds -/

/-- C5 counterexample: for `V = 2` valid ballots and `S = 1` seat the claimed
strict Droop bound `quota * (S+1) - (S+1) < V` fails: the quota computed by
`calculate` is `2` and `2 * 2 - 2 = 2 ≮ 2`. -/
theorem C5_counterexample :
    droopQuota 2 1 = 2 ∧ quotaOf 1 [mkB ["A"], mkB ["A"]] = 2 ∧
      ¬(droopQuota 2 1 * (1 + 1) - (1 + 1) < 2) := by
  refine ⟨rfl, ?_, by decide⟩
  norm_num [quotaOf, countValid, droopQuota, mkB, Ballot.isValid]

/-- C5 (amended): for valid-ballot count `V` and seats `S ≥ 1` the quota is
`V / (S+1) + 1`, with `quota * (S+1) > V` and the weak lower Droop bound
`quota * (S+1) - (S+1) ≤ V` (equality occurs whenever `S+1` divides `V`, so
the strict form of the lower bound is false).  Moreover the quota used by
`calculate` is computed from valid ballots only: appending a spoiled ballot
leaves it unchanged. -/
theorem C5_amended (V S seats : Nat) (ballots : List Ballot) (b : Ballot)
    (hS : 1 ≤ S) (hb : ¬ b.isValid = true) :
    droopQuota V S = V / (S + 1) + 1 ∧
    V < droopQuota V S * (S + 1) ∧
    droopQuota V S * (S + 1) - (S + 1) ≤ V ∧
    quotaOf seats (ballots ++ [b]) = quotaOf seats ballots := by
  have hdm := Nat.div_add_mod V (S + 1)
  have hml := Nat.mod_lt V (show 0 < S + 1 by omega)
  have key : droopQuota V S * (S + 1) = (S + 1) * (V / (S + 1)) + (S + 1) := by
    unfold droopQuota
    ring
  refine ⟨rfl, ?_, ?_, ?_⟩
  · rw [key]
    omega
  · rw [key]
    omega
  · unfold quotaOf
    have : countValid (ballots ++ [b]) = countValid ballots := by
      unfold countValid
      rw [List.filter_append]
      simp [List.filter_cons_of_neg (by simpa using hb)]
    rw [this]

/-- Witness for `C5_amended` at `V = 4`, `S = 1`, one valid ballot plus a
spoiled (empty) ballot. -/
theorem C5_amended_witness :
    (1 ≤ 1 ∧ ¬ (Ballot.mk [] 1).isValid = true) ∧
    (droopQuota 4 1 = 4 / (1 + 1) + 1 ∧
     4 < droopQuota 4 1 * (1 + 1) ∧
     droopQuota 4 1 * (1 + 1) - (1 + 1) ≤ 4 ∧
     quotaOf 1 ([mkB ["A"]] ++ [Ballot.mk [] 1]) = quotaOf 1 [mkB ["A"]]) :=
  ⟨⟨by decide, by decide⟩,
   C5_amended 4 1 1 [mkB ["A"]] (Ballot.mk [] 1) (by decide) (by decide)⟩

/-! ## Claim C3: election by default does not empty the allocation -/

/-- C3: with 3 seats, sole candidate A and no ballots, every round
elects A by default, yet A's bucket is still in the allocation after the
round; `calculate` returns A elected three times.  This contradicts the
specified behaviour (allocation becomes empty, nobody elected twice); the
evaluation below documents the code bug. -/
theorem C3_bug :
    calculate 3 ["A"] [] false .NONE zeroOracle = .ok ["A", "A", "A"] ∧
    (boundaryState 3 ["A"] [] false .NONE zeroOracle 1).alloc = [("A", [])] ∧
    (boundaryState 3 ["A"] [] false .NONE zeroOracle 1).elected = ["A"] := by
  refine ⟨?_, ?_, ?_⟩ <;> decide

/-! ## Claim C9: unresolved eliminating tie -/

/-- C9: in a round where nobody reached quota, more candidates remain than
open seats, exactly two candidates share the minimum score, and the tie
strategy is `NONE`, the round raises the eliminating-tie error carrying
exactly those two candidates and the elected-so-far list, and mutates
nothing (the error is returned before any elimination). -/
theorem C9_eliminating_tie (seats : Nat) (quota : ℚ) (oracle : Nat → Nat)
    (noDefaulting : Bool) (s : ElecState) (c₁ c₂ : Candidate)
    (hne : ¬ s.alloc.length = 0)
    (hrq : ((scoresList s.store s.alloc).filter (fun p => quota ≤ p.2)).map (·.1)
      = [])
    (hmore : seats - s.elected.length < s.alloc.length)
    (hlow : ((scoresList s.store s.alloc).filter
        (fun p => p.2 = listMin ((scoresList s.store s.alloc).map (·.2)))).map (·.1)
      = [c₁, c₂]) :
    roundBody seats quota .NONE oracle noDefaulting s
      = .inl (.unbreakableTie s.elected [c₁, c₂] false) := by
  unfold roundBody
  dsimp only
  rw [if_neg hne, hrq, hlow]
  rw [if_neg (show ¬(([] : List Candidate) ≠ []) by simp)]
  rw [if_neg (show ¬(s.alloc.length ≤ seats - s.elected.length) by omega)]
  rw [if_pos (show 1 < ([c₁, c₂] : List Candidate).length by simp)]
  rfl

/-- Witness for `C9_eliminating_tie`: 1 seat, candidates A, B, C, ballots
`A`, `A`, `B`, `C` (quota 3): B and C tie at the minimum and the round
fails carrying exactly `[B, C]` and the empty elected list. -/
theorem C9_eliminating_tie_witness :
    (¬ (boundaryState 1 ["A", "B", "C"] tieBallots false .NONE zeroOracle 0).alloc.length = 0 ∧
     (boundaryState 1 ["A", "B", "C"] tieBallots false .NONE zeroOracle 0).elected = [] ∧
     calculate 1 ["A", "B", "C"] tieBallots false .NONE zeroOracle
       = .unbreakableTie [] ["B", "C"] false) ∧
    roundBody 1 (quotaOf 1 tieBallots) .NONE zeroOracle false
        (boundaryState 1 ["A", "B", "C"] tieBallots false .NONE zeroOracle 0)
      = .inl (.unbreakableTie
          (boundaryState 1 ["A", "B", "C"] tieBallots false .NONE zeroOracle 0).elected
          ["B", "C"] false) :=
  ⟨⟨by with_unfolding_all decide, by with_unfolding_all decide,
    by with_unfolding_all decide⟩,
   C9_eliminating_tie 1 (quotaOf 1 tieBallots) zeroOracle false
     (boundaryState 1 ["A", "B", "C"] tieBallots false .NONE zeroOracle 0)
     "B" "C" (by with_unfolding_all decide) (by with_unfolding_all decide)
     (by with_unfolding_all decide) (by with_unfolding_all decide)⟩

/-! ## Claim C10: determinism away from the RANDOM strategy -/

theorem breakTie_oracle (strat : TieStrategy) (h : strat ≠ .RANDOM)
    (o₁ o₂ : Nat → Nat) (k : Nat) (tied : List Candidate) :
    breakTie strat o₁ k tied = breakTie strat o₂ k tied := by
  cases strat with
  | NONE => rfl
  | RANDOM => exact absurd rfl h
  | FIRST_IN_ORDER => rfl

theorem roundBody_oracle (seats : Nat) (quota : ℚ) (strat : TieStrategy)
    (h : strat ≠ .RANDOM) (o₁ o₂ : Nat → Nat) (noDefaulting : Bool)
    (s : ElecState) :
    roundBody seats quota strat o₁ noDefaulting s
      = roundBody seats quota strat o₂ noDefaulting s := by
  unfold roundBody
  simp only [breakTie_oracle strat h o₁ o₂]

theorem loop_oracle (seats : Nat) (quota : ℚ) (strat : TieStrategy)
    (h : strat ≠ .RANDOM) (o₁ o₂ : Nat → Nat) (noDefaulting : Bool) :
    ∀ (fuel : Nat) (s : ElecState),
      loop seats quota strat o₁ noDefaulting fuel s
        = loop seats quota strat o₂ noDefaulting fuel s := by
  intro fuel
  induction fuel with
  | zero => intro s; rfl
  | succ fuel ih =>
    intro s
    simp only [loop]
    rw [roundBody_oracle seats quota strat h o₁ o₂ noDefaulting s]
    split
    · cases roundBody seats quota strat o₂ noDefaulting s with
      | inl e => rfl
      | inr s' => exact ih s'
    · rfl

/-- C10: for any seats, candidates, ballots and a tie strategy other than
`RANDOM`, the run of `calculate` does not depend on the randomness source at
all: the full outcome (result and final state, hence the elected list or
the raised error with its carried data) is identical for any two oracles. -/
theorem C10_deterministic (seats : Nat) (candidates : List Candidate)
    (ballots : List Ballot) (noDefaulting : Bool) (strat : TieStrategy)
    (o₁ o₂ : Nat → Nat) (h : strat ≠ .RANDOM) :
    calculateFull seats candidates ballots noDefaulting strat o₁
      = calculateFull seats candidates ballots noDefaulting strat o₂ := by
  unfold calculateFull
  split
  · rfl
  next s0 heq =>
    rw [loop_oracle seats (quotaOf seats ballots) strat h o₁ o₂ noDefaulting
      (fuelOf candidates seats) s0]

/-- Witness for `C10_deterministic`: the eliminating-tie election run with
`FIRST_IN_ORDER` gives the same outcome under two different oracles. -/
theorem C10_deterministic_witness :
    (TieStrategy.FIRST_IN_ORDER ≠ TieStrategy.RANDOM) ∧
    calculateFull 1 ["A", "B", "C"] tieBallots false .FIRST_IN_ORDER zeroOracle
      = calculateFull 1 ["A", "B", "C"] tieBallots false .FIRST_IN_ORDER
          (fun k => 5 * k + 3) :=
  ⟨by decide,
   C10_deterministic 1 ["A", "B", "C"] tieBallots false .FIRST_IN_ORDER
     zeroOracle (fun k => 5 * k + 3) (by decide)⟩

/-! ## Claim C8: ballot validity, spoiling, and exclusion from buckets -/

theorem isValid_iff (b : Ballot) :
    b.isValid = true ↔ b.choices ≠ [] ∧ b.choices.Nodup := by
  unfold Ballot.isValid
  rw [Bool.and_eq_true, Bool.not_eq_true', beq_iff_eq]
  constructor
  · rintro ⟨h1, h2⟩
    refine ⟨by simpa [List.isEmpty_iff] using h1, ?_⟩
    have hsub := List.dedup_sublist b.choices
    have heq : b.choices.dedup = b.choices := hsub.eq_of_length h2.symm
    rw [← heq]
    exact List.nodup_dedup b.choices
  · rintro ⟨h1, h2⟩
    refine ⟨by simpa [List.isEmpty_iff] using h1, ?_⟩
    rw [List.dedup_eq_self.mpr h2]

theorem fromRowGo_nodup :
    ∀ (pairs : List (Option Nat × Candidate)) (acc : List (Nat × Candidate))
      (res : List (Nat × Candidate)),
      fromRowGo pairs acc = some res → (acc.map (·.1)).Nodup →
      ((acc.map (·.1)) ++ pairs.filterMap (·.1)).Nodup := by
  intro pairs
  induction pairs with
  | nil =>
    intro acc res _ hacc
    simpa using hacc
  | cons pr rest ih =>
    intro acc res h hacc
    match pr with
    | (none, c) =>
      simp only [fromRowGo] at h
      simpa using ih acc res h hacc
    | (some k, c) =>
      simp only [fromRowGo] at h
      split at h
      · exact Option.noConfusion h
      next hk =>
        have hacc' : ((acc ++ [(k, c)]).map (·.1)).Nodup := by
          rw [List.map_append]
          simp only [List.map_cons, List.map_nil]
          rw [(List.perm_append_singleton _ _).nodup_iff]
          rw [List.nodup_cons]
          exact ⟨by simpa using hk, hacc⟩
        have hres := ih _ res h hacc'
        rw [List.map_append] at hres
        have hperm : ((acc.map (·.1) ++ [k]) ++ rest.filterMap (·.1)).Perm
            (acc.map (·.1) ++ ((some k, c) :: rest).filterMap (·.1)) := by
          rw [show ((some k, c) :: rest).filterMap (·.1)
              = k :: rest.filterMap (·.1) from by simp [List.filterMap_cons],
            List.append_assoc]
          exact (List.perm_middle).symm.append_left _
        exact hperm.nodup_iff.mp (by simpa using hres)

/-- A raw row whose non-blank ranks repeat is spoiled by `from_row`. -/
theorem fromRow_dup_spoiled (row : List (Option Nat)) (cands : List Candidate)
    (hdup : ¬((row.zip cands).filterMap (·.1)).Nodup) :
    fromRow row cands = ⟨[], 1⟩ := by
  unfold fromRow
  split
  · rfl
  next acc heq =>
    have := fromRowGo_nodup (row.zip cands) [] acc heq (by simp)
    simp only [List.map_nil, List.nil_append] at this
    exact absurd this hdup

theorem quotaOf_pos (seats : Nat) (ballots : List Ballot) :
    0 < quotaOf seats ballots := by
  unfold quotaOf droopQuota
  exact_mod_cast Nat.succ_pos _

/-- C8: a ballot is valid iff its (blank-free) preference list is non-empty
and duplicate-free; a raw row with a duplicated rank yields the empty —
spoiled — ballot rather than a crash; spoiled ballots do not enter the
quota; and at every round boundary of every run, every ballot id held in
any allocation bucket belongs to a valid ballot. -/
theorem C8_validity (b : Ballot) (row : List (Option Nat))
    (cands : List Candidate) (seats : Nat) (ballots : List Ballot)
    (bb : Ballot) (k : Nat) (noDefaulting : Bool) (strat : TieStrategy)
    (oracle : Nat → Nat)
    (hdup : ¬((row.zip cands).filterMap (·.1)).Nodup)
    (hbb : ¬ bb.isValid = true) :
    (b.isValid = true ↔ b.choices ≠ [] ∧ b.choices.Nodup) ∧
    fromRow row cands = ⟨[], 1⟩ ∧
    (fromRow row cands).isValid = false ∧
    quotaOf seats (bb :: ballots) = quotaOf seats ballots ∧
    (∀ x ∈ flatIds (boundaryState seats cands ballots noDefaulting strat
        oracle k).alloc,
      (ballots.getD x default).isValid = true) := by
  refine ⟨isValid_iff b, fromRow_dup_spoiled row cands hdup, ?_, ?_, ?_⟩
  · rw [fromRow_dup_spoiled row cands hdup]
    rfl
  · unfold quotaOf
    rw [show countValid (bb :: ballots) = countValid ballots from by
      unfold countValid
      rw [List.filter_cons_of_neg (by simpa using hbb)]]
  · intro x hx
    revert hx
    unfold boundaryState
    split
    · intro hx
      simp [flatIds, default] at hx
    next s0 heq =>
      intro hx
      obtain ⟨_, _, _, _, _, _, hwfa, _, hflat, _⟩ :=
        initState_spec cands ballots s0 heq
      have hreach := loop_reach seats (quotaOf seats ballots) strat oracle
        noDefaulting k s0 hwfa (quotaOf_pos seats ballots)
      exact (hflat x (hreach.flatSub x hx)).2

/-- Witness for `C8_validity` at a concrete duplicated-rank row and a
concrete election. -/
theorem C8_validity_witness :
    (¬(([some 1, some 1, none].zip ["A", "B", "C"]).filterMap (·.1)).Nodup ∧
     ¬ (Ballot.mk ["A", "A"] 1).isValid = true) ∧
    ((Ballot.mk ["A", "B"] 1).isValid = true ↔
      (Ballot.mk ["A", "B"] 1).choices ≠ [] ∧ (Ballot.mk ["A", "B"] 1).choices.Nodup) ∧
    fromRow [some 1, some 1, none] ["A", "B", "C"] = ⟨[], 1⟩ ∧
    (fromRow [some 1, some 1, none] ["A", "B", "C"]).isValid = false ∧
    quotaOf 1 (Ballot.mk ["A", "A"] 1 :: tieBallots) = quotaOf 1 tieBallots ∧
    (∀ x ∈ flatIds (boundaryState 1 ["A", "B", "C"] tieBallots false .NONE
        zeroOracle 1).alloc,
      (tieBallots.getD x default).isValid = true) :=
  ⟨⟨by decide, by decide⟩,
   C8_validity (Ballot.mk ["A", "B"] 1) [some 1, some 1, none] ["A", "B", "C"]
     1 tieBallots (Ballot.mk ["A", "A"] 1) 1 false .NONE zeroOracle
     (by decide) (by decide)⟩

/-! ## Claim C7: electing a candidate -/

theorem getD_oob (l : List Ballot) (i : Nat) (h : l.length ≤ i) :
    l.getD i default = default := by
  induction l generalizing i with
  | nil => cases i <;> rfl
  | cons x xs ih =>
    cases i with
    | zero => simp at h
    | succ j =>
      rw [List.getD_cons_succ]
      exact ih j (by simpa using h)

theorem transfer_choices_self (st : List Ballot) (a : Alloc) (i : Nat) :
    ((transfer st a i).1.getD i default).choices
      = (st.getD i default).choices.dropWhile (fun x => !decide (x ∈ keys a)) := by
  unfold transfer
  dsimp only
  split
  · next heq =>
    by_cases hi : i < st.length
    · rw [getD_set_same st i _ hi]
    · rw [set_oob st i _ (by omega), getD_oob st i (by omega)]
      rfl
  · next c tl heq =>
    by_cases hi : i < st.length
    · rw [getD_set_same st i _ hi]
    · rw [getD_oob st i (by omega)] at heq
      rw [show (default : Ballot).choices = [] from rfl] at heq
      exact List.noConfusion heq
  
theorem transfer_choices_other (st : List Ballot) (a : Alloc) (i j : Nat)
    (hij : j ≠ i) :
    ((transfer st a i).1.getD j default).choices
      = (st.getD j default).choices := by
  unfold transfer
  dsimp only
  split
  · rw [getD_set_other st i j _ (fun hh => hij hh.symm)]
  · rw [getD_set_other st i j _ (fun hh => hij hh.symm)]

theorem transfer_self_mem (st : List Ballot) (a : Alloc) (i : Nat)
    (hne : (st.getD i default).choices.dropWhile
      (fun x => !decide (x ∈ keys a)) ≠ []) :
    i ∈ flatIds (transfer st a i).2.1 := by
  unfold transfer
  dsimp only
  split
  · next heq => exact absurd heq hne
  · next c tl heq =>
    have hc : c ∈ keys a := by
      have := dropWhile_head_false heq
      simpa using this
    exact (flatIds_appendTo_perm a c i hc).mem_iff.mpr (by simp)

theorem electTransfer_choices_notMem (m : ℚ) (st : List Ballot) (a : Alloc)
    (ids : List Nat) (j : Nat) (hj : j ∉ ids) :
    ((electTransfer m st a ids).1.getD j default).choices
      = (st.getD j default).choices := by
  induction ids generalizing st a with
  | nil => rfl
  | cons i rest ih =>
    simp only [List.mem_cons, not_or] at hj
    simp only [electTransfer]
    rw [ih _ _ hj.2, transfer_choices_other _ _ _ _ hj.1,
      getD_set_other st i j _ (fun hh => hj.1 hh.symm)]

/-- Every rescaled-and-transferred ballot either lands in a bucket of the
resulting allocation or has been exhausted (its choices emptied). -/
theorem electTransfer_placed (m : ℚ) (st : List Ballot) (a : Alloc)
    (ids : List Nat) (hn : ids.Nodup) :
    ∀ id ∈ ids, id ∈ flatIds (electTransfer m st a ids).2.1 ∨
      ((electTransfer m st a ids).1.getD id default).choices = [] := by
  induction ids generalizing st a with
  | nil => intro id hid; simp at hid
  | cons i rest ih =>
    rw [List.nodup_cons] at hn
    intro id hid
    rcases List.mem_cons.mp hid with hid | hid
    · subst hid
      simp only [electTransfer]
      cases hcs : ((st.set id { st.getD id default with
          value := (st.getD id default).value * m }).getD id default).choices.dropWhile
          (fun x => !decide (x ∈ keys a)) with
      | nil =>
        right
        rw [electTransfer_choices_notMem _ _ _ _ _ hn.1,
          transfer_choices_self, hcs]
      | cons c tl =>
        left
        refine electTransfer_flat_grow _ _ _ _ _ ?_
        exact transfer_self_mem _ a id (by rw [hcs]; simp)
    · simp only [electTransfer]
      exact ih _ _ hn.2 id hid

/-- C7: electing a candidate `c` with snapshot score at least the quota:
with zero surplus the candidate's bucket is simply deleted and nothing else
changes (no ballot is touched, none redistributed); with non-zero surplus
every ballot of the bucket is rescaled by `surplus / quota` and is either
re-credited to a bucket of the new allocation or exhausted; the candidate
leaves the allocation and, once out, never reappears in any later round. -/
theorem C7_elect (quota : ℚ) (sc : List (Candidate × ℚ)) (s : ElecState)
    (c : Candidate) (seats : Nat) (strat : TieStrategy) (oracle : Nat → Nat)
    (noDefaulting : Bool) (fuel : Nat) (s2 : ElecState)
    (hw : WFA s) (hc : c ∈ keys s.alloc) (hq : 0 < quota) :
    (lookupScore sc c - quota = 0 →
      electOne quota sc s c
        = { s with elected := s.elected ++ [c], alloc := eraseKey s.alloc c,
                   log := s.log ++ [⟨c, lookupScore sc c,
                     scoreOf s.store (bucket s.alloc c),
                     scoreOf s.store (bucket s.alloc c)⟩] }) ∧
    (lookupScore sc c - quota ≠ 0 →
      ∀ id ∈ bucket s.alloc c,
        ((electOne quota sc s c).store.getD id default).value
          = (s.store.getD id default).value * ((lookupScore sc c - quota) / quota)) ∧
    c ∉ keys (electOne quota sc s c).alloc ∧
    (lookupScore sc c - quota ≠ 0 →
      ∀ id ∈ bucket s.alloc c,
        id ∈ flatIds (electOne quota sc s c).alloc ∨
          ((electOne quota sc s c).store.getD id default).choices = []) ∧
    (c ∉ keys s2.alloc → WFA s2 →
      c ∉ keys (loop seats quota strat oracle noDefaulting fuel s2).state.alloc) := by
  obtain ⟨hb1, hb2, hb3⟩ := bucket_flat_facts s.alloc c hw.keysNodup hc hw.idsNodup
  refine ⟨?_, ?_, ?_, ?_, ?_⟩
  · intro h0
    unfold electOne
    dsimp only
    rw [if_pos h0]
  · intro hne id hid
    revert hid
    unfold electOne
    dsimp only
    rw [if_neg hne]
    intro hid
    exact electTransfer_value_mem _ s.store (eraseKey s.alloc c) _ hb1
      (fun x hx => hw.idsLt x (bucket_sub_flat s.alloc c x hx)) id hid
  · intro hmem
    rw [electOne_keys, keys_eraseKey_mem] at hmem
    exact hmem.2 rfl
  · intro hne id hid
    revert hid
    unfold electOne
    dsimp only
    rw [if_neg hne]
    intro hid
    exact electTransfer_placed _ s.store (eraseKey s.alloc c) _ hb1 id hid
  · intro hnk hw2
    intro hmem
    exact hnk ((loop_reach seats quota strat oracle noDefaulting fuel s2
      hw2 hq).keysSub c hmem)

/-- Witness for `C7_elect`: the initial round of the surplus election
(2 seats, A scores 4 against quota 3). -/
theorem C7_elect_witness :
    ((boundaryState 2 ["A", "B", "C"] surplusBallots false .NONE zeroOracle 0).alloc.length = 3 ∧
     "A" ∈ keys (boundaryState 2 ["A", "B", "C"] surplusBallots false .NONE zeroOracle 0).alloc ∧
     (0 : ℚ) < quotaOf 2 surplusBallots) ∧
    (lookupScore (scoresList surplusBallots
        (boundaryState 2 ["A", "B", "C"] surplusBallots false .NONE zeroOracle 0).alloc) "A"
        - quotaOf 2 surplusBallots ≠ 0 →
      ∀ id ∈ bucket (boundaryState 2 ["A", "B", "C"] surplusBallots false .NONE zeroOracle 0).alloc "A",
        (((electOne (quotaOf 2 surplusBallots)
            (scoresList surplusBallots
              (boundaryState 2 ["A", "B", "C"] surplusBallots false .NONE zeroOracle 0).alloc)
            (boundaryState 2 ["A", "B", "C"] surplusBallots false .NONE zeroOracle 0)
            "A").store.getD id default)).value
          = (((boundaryState 2 ["A", "B", "C"] surplusBallots false .NONE zeroOracle 0).store.getD
              id default)).value
            * ((lookupScore (scoresList surplusBallots
                (boundaryState 2 ["A", "B", "C"] surplusBallots false .NONE zeroOracle 0).alloc) "A"
              - quotaOf 2 surplusBallots) / quotaOf 2 surplusBallots)) ∧
    "A" ∉ keys (electOne (quotaOf 2 surplusBallots)
        (scoresList surplusBallots
          (boundaryState 2 ["A", "B", "C"] surplusBallots false .NONE zeroOracle 0).alloc)
        (boundaryState 2 ["A", "B", "C"] surplusBallots false .NONE zeroOracle 0) "A").alloc := by
  have hw : WFA (boundaryState 2 ["A", "B", "C"] surplusBallots false .NONE zeroOracle 0) :=
    ⟨by with_unfolding_all decide, by with_unfolding_all decide,
     by with_unfolding_all decide⟩
  have h := C7_elect (quotaOf 2 surplusBallots)
    (scoresList surplusBallots
      (boundaryState 2 ["A", "B", "C"] surplusBallots false .NONE zeroOracle 0).alloc)
    (boundaryState 2 ["A", "B", "C"] surplusBallots false .NONE zeroOracle 0)
    "A" 2 .NONE zeroOracle false 0
    (boundaryState 2 ["A", "B", "C"] surplusBallots false .NONE zeroOracle 0)
    hw (by with_unfolding_all decide) (quotaOf_pos 2 surplusBallots)
  exact ⟨⟨by with_unfolding_all decide, by with_unfolding_all decide,
    quotaOf_pos 2 surplusBallots⟩, h.2.1, h.2.2.1⟩

/-! ## Claim C2: the electing-tie branch -/

/-- C2 (amended): when more candidates reached quota than there are open
seats, `calculate` invokes the tie policy over the *entire* reached-quota
list (not only the boundary candidates); if the policy is unresolved the
round fails carrying that entire list, and if it resolves the reached-quota
set is replaced by the single chosen candidate, so exactly one candidate —
not `open` many — is elected in that round. -/
theorem C2_electing_trim (seats : Nat) (quota : ℚ) (strat : TieStrategy)
    (oracle : Nat → Nat) (noDefaulting : Bool) (s : ElecState)
    (hne : ¬ s.alloc.length = 0)
    (hrq : ((scoresList s.store s.alloc).filter
      (fun p => quota ≤ p.2)).map (·.1) ≠ [])
    (hlt : seats - s.elected.length
      < (((scoresList s.store s.alloc).filter
          (fun p => quota ≤ p.2)).map (·.1)).length) :
    (breakTie strat oracle s.rngK
        (((scoresList s.store s.alloc).filter
          (fun p => quota ≤ p.2)).map (·.1)) = none →
      roundBody seats quota strat oracle noDefaulting s
        = .inl (.unbreakableTie s.elected
            (((scoresList s.store s.alloc).filter
              (fun p => quota ≤ p.2)).map (·.1)) true)) ∧
    (∀ w, breakTie strat oracle s.rngK
        (((scoresList s.store s.alloc).filter
          (fun p => quota ≤ p.2)).map (·.1)) = some w →
      roundBody seats quota strat oracle noDefaulting s
        = .inr (electAll quota (scoresList s.store s.alloc)
            { s with rngK := s.rngK + 1, rounds := s.rounds + 1 } [w]) ∧
      (electAll quota (scoresList s.store s.alloc)
          { s with rngK := s.rngK + 1, rounds := s.rounds + 1 } [w]).elected
        = s.elected ++ [w]) := by
  constructor
  · intro hbt
    unfold roundBody
    dsimp only
    rw [if_neg hne, if_pos hrq, if_pos hlt, hbt]
  · intro w hbt
    constructor
    · unfold roundBody
      dsimp only
      rw [if_neg hne, if_pos hrq, if_pos hlt, hbt]
    · rw [electAll_elected]

/-- C2 counterexample: 3 seats, candidates W, Z, B, C with `trimBallots`.
After W is elected in round 1, Z, B, C all exceed the quota with Z strictly
above the boundary score (Z scores 56/3, B and C score 14, and 2 seats are
open, so the `open`-th-rank score is 14).  Under the `NONE` policy the code
raises the electing tie carrying the whole set `[Z, B, C]` — including Z,
which is not a boundary candidate — and under `FIRST_IN_ORDER` round 2
elects only B (one member, not `open = 2`), leaving the strictly higher
scorer Z unelected for good. -/
theorem C2_counterexample :
    calculate 3 ["W", "Z", "B", "C"] trimBallots false .NONE zeroOracle
      = .unbreakableTie ["W"] ["Z", "B", "C"] true ∧
    (boundaryState 3 ["W", "Z", "B", "C"] trimBallots false .NONE zeroOracle 1).elected
      = ["W"] ∧
    lookupScore (scoresList
        (boundaryState 3 ["W", "Z", "B", "C"] trimBallots false .NONE zeroOracle 1).store
        (boundaryState 3 ["W", "Z", "B", "C"] trimBallots false .NONE zeroOracle 1).alloc)
      "Z" = 56 / 3 ∧
    lookupScore (scoresList
        (boundaryState 3 ["W", "Z", "B", "C"] trimBallots false .NONE zeroOracle 1).store
        (boundaryState 3 ["W", "Z", "B", "C"] trimBallots false .NONE zeroOracle 1).alloc)
      "B" = 14 ∧
    lookupScore (scoresList
        (boundaryState 3 ["W", "Z", "B", "C"] trimBallots false .NONE zeroOracle 1).store
        (boundaryState 3 ["W", "Z", "B", "C"] trimBallots false .NONE zeroOracle 1).alloc)
      "C" = 14 ∧
    ((56 : ℚ) / 3 ≠ 14) ∧
    calculate 3 ["W", "Z", "B", "C"] trimBallots false .FIRST_IN_ORDER zeroOracle
      = .ok ["W", "B", "C"] ∧
    (boundaryState 3 ["W", "Z", "B", "C"] trimBallots false .FIRST_IN_ORDER
        zeroOracle 2).elected = ["W", "B"] := by
  refine ⟨?_, ?_, ?_, ?_, ?_, ?_, ?_, ?_⟩ <;> with_unfolding_all decide

/-- Witness for `C2_electing_trim` at the round-2 state of the
`trimBallots` election. -/
theorem C2_electing_trim_witness :
    (¬ (boundaryState 3 ["W", "Z", "B", "C"] trimBallots false .NONE zeroOracle 1).alloc.length = 0) ∧
    (breakTie .NONE zeroOracle
        (boundaryState 3 ["W", "Z", "B", "C"] trimBallots false .NONE zeroOracle 1).rngK
        (((scoresList
            (boundaryState 3 ["W", "Z", "B", "C"] trimBallots false .NONE zeroOracle 1).store
            (boundaryState 3 ["W", "Z", "B", "C"] trimBallots false .NONE zeroOracle 1).alloc).filter
          (fun p => quotaOf 3 trimBallots ≤ p.2)).map (·.1)) = none →
      roundBody 3 (quotaOf 3 trimBallots) .NONE zeroOracle false
          (boundaryState 3 ["W", "Z", "B", "C"] trimBallots false .NONE zeroOracle 1)
        = .inl (.unbreakableTie
            (boundaryState 3 ["W", "Z", "B", "C"] trimBallots false .NONE zeroOracle 1).elected
            (((scoresList
                (boundaryState 3 ["W", "Z", "B", "C"] trimBallots false .NONE zeroOracle 1).store
                (boundaryState 3 ["W", "Z", "B", "C"] trimBallots false .NONE zeroOracle 1).alloc).filter
              (fun p => quotaOf 3 trimBallots ≤ p.2)).map (·.1)) true)) :=
  ⟨by with_unfolding_all decide,
   (C2_electing_trim 3 (quotaOf 3 trimBallots) .NONE zeroOracle false
     (boundaryState 3 ["W", "Z", "B", "C"] trimBallots false .NONE zeroOracle 1)
     (by with_unfolding_all decide) (by with_unfolding_all decide)
     (by with_unfolding_all decide)).1⟩

/-! ## Claim C4: per-round progress and termination -/

theorem loop_rounds_le (seats : Nat) (quota : ℚ) (strat : TieStrategy)
    (oracle : Nat → Nat) (noDefaulting : Bool) :
    ∀ (fuel : Nat) (s : ElecState), WFA s → 0 < quota →
      (loop seats quota strat oracle noDefaulting fuel s).state.rounds
        ≤ s.rounds + (s.alloc.length + (seats - s.elected.length)) := by
  intro fuel
  induction fuel with
  | zero => intro s _ _; simp [loop, LoopOut.state]
  | succ fuel ih =>
    intro s hw hq
    by_cases hel : s.elected.length < seats
    · cases hrb : roundBody seats quota strat oracle noDefaulting s with
      | inl e =>
        have hl : loop seats quota strat oracle noDefaulting (fuel + 1) s
            = .err e s := by
          simp only [loop]
          rw [if_pos hel, hrb]
        rw [hl]
        simp [LoopOut.state]
      | inr s' =>
        have hl : loop seats quota strat oracle noDefaulting (fuel + 1) s
            = loop seats quota strat oracle noDefaulting fuel s' := by
          simp only [loop]
          rw [if_pos hel, hrb]
        rw [hl]
        have hstep := roundBody_step seats quota strat oracle noDefaulting s s'
          hw hq hel hrb
        have h1 := ih s' hstep.wfa hq
        have h2 := hstep.measureLt hel
        have h3 := hstep.roundsSucc
        omega
    · have hl : loop seats quota strat oracle noDefaulting (fuel + 1) s
          = .done s := by
        simp only [loop]
        rw [if_neg hel]
      rw [hl]
      simp [LoopOut.state]

theorem roundBody_not_fuelOut (seats : Nat) (quota : ℚ) (strat : TieStrategy)
    (oracle : Nat → Nat) (noDefaulting : Bool) (s : ElecState) (e : CalcResult)
    (h : roundBody seats quota strat oracle noDefaulting s = .inl e) :
    e ≠ .fuelOut := by
  unfold roundBody at h
  dsimp only at h
  split at h
  · cases h
    simp
  · split at h
    · split at h
      · split at h
        · cases h
          simp
        · exact Sum.noConfusion h
      · exact Sum.noConfusion h
    · split at h
      · split at h
        · cases h
          simp
        · exact Sum.noConfusion h
      · split at h
        · split at h
          · cases h
            simp
          · exact Sum.noConfusion h
        · exact Sum.noConfusion h

theorem loop_err_not_fuelOut (seats : Nat) (quota : ℚ) (strat : TieStrategy)
    (oracle : Nat → Nat) (noDefaulting : Bool) :
    ∀ (fuel : Nat) (s : ElecState) (e : CalcResult) (s2 : ElecState),
      loop seats quota strat oracle noDefaulting fuel s = .err e s2 →
      e ≠ .fuelOut := by
  intro fuel
  induction fuel with
  | zero => intro s e s2 h; exact LoopOut.noConfusion h
  | succ fuel ih =>
    intro s e s2 h
    rw [loop] at h
    split at h
    next hel =>
      cases hrb : roundBody seats quota strat oracle noDefaulting s with
      | inl e' =>
        rw [hrb] at h
        cases h
        exact roundBody_not_fuelOut seats quota strat oracle noDefaulting s e hrb
      | inr s' =>
        rw [hrb] at h
        exact ih s' e s2 h
    next hel => exact LoopOut.noConfusion h

/-- C4 (amended): every executed round either strictly shrinks the
allocation or strictly increases the elected list — the quantity
`|allocation| + (seats − |elected|)` strictly decreases — and therefore
`calculate` always terminates: it never exhausts its fuel of
`|distinct candidates| + seats + 1` iterations, and the number of executed
rounds never exceeds `|distinct candidates| + seats`.  (The claimed bound of
`|candidates|` rounds is false because a default-election round does not
shrink the allocation; see the counterexample.) -/
theorem C4_progress (seats : Nat) (quota : ℚ) (strat : TieStrategy)
    (oracle : Nat → Nat) (noDefaulting : Bool) (s s' : ElecState)
    (candidates : List Candidate) (ballots : List Ballot)
    (hw : WFA s) (hq : 0 < quota) (hel : s.elected.length < seats)
    (hrb : roundBody seats quota strat oracle noDefaulting s = .inr s') :
    s'.alloc.length + (seats - s'.elected.length)
        < s.alloc.length + (seats - s.elected.length) ∧
    calculate seats candidates ballots noDefaulting strat oracle
      ≠ .fuelOut ∧
    (calculateFull seats candidates ballots noDefaulting strat oracle).2.rounds
      ≤ (dedupFirst candidates).length + seats := by
  have hstep := roundBody_step seats quota strat oracle noDefaulting s s'
    hw hq hel hrb
  refine ⟨hstep.measureLt hel, ?_, ?_⟩
  · unfold calculate calculateFull
    split
    · simp
    next s0 heq =>
      obtain ⟨_, helc, _, _, _, _, hwfa, hlen, _, _⟩ :=
        initState_spec candidates ballots s0 heq
      split
      next s1 hout => simp
      next e1 s1 hout =>
        simpa using loop_err_not_fuelOut seats (quotaOf seats ballots) strat
          oracle noDefaulting (fuelOf candidates seats) s0 e1 s1 hout
      next s1 hout =>
        exact absurd hout
          (loop_fuel_enough seats (quotaOf seats ballots) strat oracle
            noDefaulting (fuelOf candidates seats) s0 hwfa
            (quotaOf_pos seats ballots)
            (by unfold fuelOf; rw [hlen, helc]; simp) s1)
  · unfold calculateFull
    split
    · simp
    next s0 heq =>
      obtain ⟨_, helc, _, _, hrounds, _, hwfa, hlen, _, _⟩ :=
        initState_spec candidates ballots s0 heq
      have hb := loop_rounds_le seats (quotaOf seats ballots) strat oracle
        noDefaulting (fuelOf candidates seats) s0 hwfa (quotaOf_pos seats ballots)
      rw [hrounds, helc, hlen] at hb
      simp only [List.length_nil, Nat.sub_zero, Nat.zero_add] at hb
      split
      next s1 hout =>
        have hs1 : s1 = (loop seats (quotaOf seats ballots) strat oracle
            noDefaulting (fuelOf candidates seats) s0).state := by
          rw [hout]
          rfl
        rw [show ((CalcResult.ok s1.elected, s1)).2 = s1 from rfl, hs1]
        omega
      next e1 s1 hout =>
        have hs1 : s1 = (loop seats (quotaOf seats ballots) strat oracle
            noDefaulting (fuelOf candidates seats) s0).state := by
          rw [hout]
          rfl
        rw [show ((e1, s1)).2 = s1 from rfl, hs1]
        omega
      next s1 hout =>
        have hs1 : s1 = (loop seats (quotaOf seats ballots) strat oracle
            noDefaulting (fuelOf candidates seats) s0).state := by
          rw [hout]
          rfl
        rw [show ((CalcResult.fuelOut, s1)).2 = s1 from rfl, hs1]
        omega

/-- Witness for `C4_progress`: the first round of the eliminating-tie
election under `FIRST_IN_ORDER` strictly decreases the measure, and the run
of `calculate` on it terminates. -/
theorem C4_progress_witness :
    ((boundaryState 1 ["A", "B", "C"] tieBallots false .FIRST_IN_ORDER zeroOracle 0).elected.length < 1 ∧
     roundBody 1 (quotaOf 1 tieBallots) .FIRST_IN_ORDER zeroOracle false
         (boundaryState 1 ["A", "B", "C"] tieBallots false .FIRST_IN_ORDER zeroOracle 0)
       = .inr (boundaryState 1 ["A", "B", "C"] tieBallots false .FIRST_IN_ORDER zeroOracle 1)) ∧
    ((boundaryState 1 ["A", "B", "C"] tieBallots false .FIRST_IN_ORDER zeroOracle 1).alloc.length
        + (1 - (boundaryState 1 ["A", "B", "C"] tieBallots false .FIRST_IN_ORDER zeroOracle 1).elected.length)
      < (boundaryState 1 ["A", "B", "C"] tieBallots false .FIRST_IN_ORDER zeroOracle 0).alloc.length
        + (1 - (boundaryState 1 ["A", "B", "C"] tieBallots false .FIRST_IN_ORDER zeroOracle 0).elected.length) ∧
     calculate 1 ["A", "B", "C"] tieBallots false .FIRST_IN_ORDER zeroOracle ≠ .fuelOut ∧
     (calculateFull 1 ["A", "B", "C"] tieBallots false .FIRST_IN_ORDER zeroOracle).2.rounds
       ≤ (dedupFirst ["A", "B", "C"]).length + 1) :=
  ⟨⟨by with_unfolding_all decide, by with_unfolding_all decide⟩,
   C4_progress 1 (quotaOf 1 tieBallots) .FIRST_IN_ORDER zeroOracle false
     (boundaryState 1 ["A", "B", "C"] tieBallots false .FIRST_IN_ORDER zeroOracle 0)
     (boundaryState 1 ["A", "B", "C"] tieBallots false .FIRST_IN_ORDER zeroOracle 1)
     ["A", "B", "C"] tieBallots
     ⟨by with_unfolding_all decide, by with_unfolding_all decide,
      by with_unfolding_all decide⟩
     (quotaOf_pos 1 tieBallots)
     (by with_unfolding_all decide) (by with_unfolding_all decide)⟩

/-! ## Claim C1: conservation of ballot weight -/

theorem storeNonneg_of_ones (ballots : List Ballot)
    (hv : ∀ b ∈ ballots, b.value = 1) : storeNonneg ballots := by
  intro j
  by_cases hj : j < ballots.length
  · have hb : ballots.getD j default ∈ ballots := by
      have hg : ballots.getD j default = ballots.get ⟨j, hj⟩ := by
        simp [List.getD_eq_getElem?_getD, List.getElem?_eq_getElem hj]
      rw [hg]
      exact List.get_mem ballots j hj
    rw [hv _ hb]
    norm_num
  · rw [getD_oob ballots j (le_of_not_lt hj)]
    exact zero_le_one

theorem electOne_logSpec (quota : ℚ) (sc : List (Candidate × ℚ))
    (s : ElecState) (c : Candidate)
    (hall : ∀ r ∈ s.log, logSpec quota r) :
    ∀ r ∈ (electOne quota sc s c).log, logSpec quota r := by
  unfold electOne
  dsimp only
  split
  next hz =>
    intro r hr
    rcases List.mem_append.mp hr with h | h
    · exact hall r h
    · have he : r = ⟨c, lookupScore sc c, scoreOf s.store (bucket s.alloc c),
          scoreOf s.store (bucket s.alloc c)⟩ := by simpa using h
      subst he
      unfold logSpec
      dsimp only
      rw [hz]
      simp
  next hz =>
    intro r hr
    rcases List.mem_append.mp hr with h | h
    · exact hall r h
    · have he : r = ⟨c, lookupScore sc c, scoreOf s.store (bucket s.alloc c),
          scoreOf s.store (bucket s.alloc c)
            - scoreOf s.store (bucket s.alloc c)
              * ((lookupScore sc c - quota) / quota)⟩ := by simpa using h
      subst he
      rfl

theorem electAll_logSpec (quota : ℚ) (sc : List (Candidate × ℚ)) :
    ∀ (l : List Candidate) (s : ElecState),
      (∀ r ∈ s.log, logSpec quota r) →
      ∀ r ∈ (electAll quota sc s l).log, logSpec quota r := by
  intro l
  induction l with
  | nil => intro s h; exact h
  | cons c rest ih =>
    intro s h
    exact ih (electOne quota sc s c) (electOne_logSpec quota sc s c h)

theorem roundBody_logSpec (seats : Nat) (quota : ℚ) (strat : TieStrategy)
    (oracle : Nat → Nat) (noDefaulting : Bool) (s s' : ElecState)
    (hrb : roundBody seats quota strat oracle noDefaulting s = .inr s')
    (hall : ∀ r ∈ s.log, logSpec quota r) :
    ∀ r ∈ s'.log, logSpec quota r := by
  unfold roundBody at hrb
  dsimp only at hrb
  split at hrb
  next => exact Sum.noConfusion hrb
  next =>
    split at hrb
    next =>
      split at hrb
      next =>
        split at hrb
        next => exact Sum.noConfusion hrb
        next w hw =>
          have hs := Sum.inr.inj hrb
          subst hs
          exact electAll_logSpec quota _ [w] _ hall
      next =>
        have hs := Sum.inr.inj hrb
        subst hs
        exact electAll_logSpec quota _ _ _ hall
    next =>
      split at hrb
      next =>
        split at hrb
        next => exact Sum.noConfusion hrb
        next =>
          have hs := Sum.inr.inj hrb
          subst hs
          exact hall
      next =>
        split at hrb
        next =>
          split at hrb
          next => exact Sum.noConfusion hrb
          next e he =>
            have hs := Sum.inr.inj hrb
            subst hs
            intro r hr
            exact hall r hr
        next =>
          have hs := Sum.inr.inj hrb
          subst hs
          intro r hr
          exact hall r hr

theorem loop_logSpec (seats : Nat) (quota : ℚ) (strat : TieStrategy)
    (oracle : Nat → Nat) (noDefaulting : Bool) :
    ∀ (fuel : Nat) (s : ElecState), (∀ r ∈ s.log, logSpec quota r) →
      ∀ r ∈ (loop seats quota strat oracle noDefaulting fuel s).state.log,
        logSpec quota r := by
  intro fuel
  induction fuel with
  | zero => intro s h; exact h
  | succ fuel ih =>
    intro s h
    simp only [loop]
    split
    next hel =>
      cases hrb : roundBody seats quota strat oracle noDefaulting s with
      | inl e => exact h
      | inr s' =>
        exact ih s'
          (roundBody_logSpec seats quota strat oracle noDefaulting s s' hrb h)
    next hel => exact h

/-- C1 (counterexample to the claim as stated): on the surplus example
(two seats, candidates A, B, C, four ballots `A > B`, one `B`, one `C`,
all at weight 1) the state after round 1 has no dropped weight and no
exactly-quota election in its log, yet the weight remaining in the
allocation (10/3) differs from the initial valid-ballot weight (6): A was
elected with score 4 above the quota 3, and the surplus transfer at
multiplier `surplus / quota` consumed 8/3 units of weight, which the
claimed bookkeeping (allocation plus quota units per exactly-quota
election, deficit only from exhausted ballots) does not see. -/
theorem C1_counterexample :
    (∀ b ∈ surplusBallots, b.value = 1) ∧
    (boundaryState 2 ["A", "B", "C"] surplusBallots false .NONE zeroOracle 1).dropped = 0 ∧
    countExactQuota
        (boundaryState 2 ["A", "B", "C"] surplusBallots false .NONE zeroOracle 1).log
        (quotaOf 2 surplusBallots) = 0 ∧
    allocSum (boundaryState 2 ["A", "B", "C"] surplusBallots false .NONE zeroOracle 1).store
        (boundaryState 2 ["A", "B", "C"] surplusBallots false .NONE zeroOracle 1).alloc
      + quotaOf 2 surplusBallots
        * (countExactQuota
            (boundaryState 2 ["A", "B", "C"] surplusBallots false .NONE zeroOracle 1).log
            (quotaOf 2 surplusBallots) : ℚ)
      ≠ (countValid surplusBallots : ℚ) := by
  with_unfolding_all decide

/-- C1 (amended): exact conservation at every round boundary.  If every
ballot starts at weight 1 then at every round boundary the weight still in
the allocation, plus the weight dropped as exhausted, plus the weight
consumed by the elections performed so far, equals the valid-ballot count;
the dropped weight is non-negative; and every logged election consumed
exactly its bucket weight minus the re-injected rescaled weight
(`spent = B − B·(score − quota)/quota`), which equals the quota exactly
when the bucket weight equals the snapshot score and that score equals the
quota — not for every election, as the claim has it. -/
theorem C1_conservation (seats : Nat) (candidates : List Candidate)
    (ballots : List Ballot) (noDefaulting : Bool) (strat : TieStrategy)
    (oracle : Nat → Nat) (k : Nat) (s0 : ElecState)
    (hinit : initStateOf candidates ballots = some s0)
    (hv : ∀ b ∈ ballots, b.value = 1) :
    allocSum (boundaryState seats candidates ballots noDefaulting strat oracle k).store
        (boundaryState seats candidates ballots noDefaulting strat oracle k).alloc
      + (boundaryState seats candidates ballots noDefaulting strat oracle k).dropped
      + spentSum (boundaryState seats candidates ballots noDefaulting strat oracle k).log
      = (countValid ballots : ℚ) ∧
    0 ≤ (boundaryState seats candidates ballots noDefaulting strat oracle k).dropped ∧
    ∀ r ∈ (boundaryState seats candidates ballots noDefaulting strat oracle k).log,
      logSpec (quotaOf seats ballots) r := by
  obtain ⟨hst, hel, hlog, hdrop, hrounds, hrng, hwfa, hlen, hflat, hsum⟩ :=
    initState_spec candidates ballots s0 hinit
  have hq := quotaOf_pos seats ballots
  have hbs : boundaryState seats candidates ballots noDefaulting strat oracle k
      = (loop seats (quotaOf seats ballots) strat oracle noDefaulting k s0).state := by
    unfold boundaryState
    rw [hinit]
  have hre := loop_reach seats (quotaOf seats ballots) strat oracle
    noDefaulting k s0 hwfa hq
  have hnn : storeNonneg s0.store := by
    rw [hst]
    exact storeNonneg_of_ones ballots hv
  refine ⟨?_, ?_, ?_⟩
  · rw [hbs, hre.acct, hsum hv, hlog, hdrop]
    simp [spentSum]
  · rw [hbs]
    have hd := hre.dropMono hnn
    rw [hdrop] at hd
    exact hd
  · rw [hbs]
    refine loop_logSpec seats (quotaOf seats ballots) strat oracle
      noDefaulting k s0 ?_
    rw [hlog]
    simp

/-- Witness for `C1_conservation`: the surplus example after one round
balances its books exactly. -/
theorem C1_conservation_witness :
    (∀ b ∈ surplusBallots, b.value = 1) ∧
    (allocSum (boundaryState 2 ["A", "B", "C"] surplusBallots false .NONE zeroOracle 1).store
        (boundaryState 2 ["A", "B", "C"] surplusBallots false .NONE zeroOracle 1).alloc
      + (boundaryState 2 ["A", "B", "C"] surplusBallots false .NONE zeroOracle 1).dropped
      + spentSum (boundaryState 2 ["A", "B", "C"] surplusBallots false .NONE zeroOracle 1).log
      = (countValid surplusBallots : ℚ) ∧
    0 ≤ (boundaryState 2 ["A", "B", "C"] surplusBallots false .NONE zeroOracle 1).dropped ∧
    ∀ r ∈ (boundaryState 2 ["A", "B", "C"] surplusBallots false .NONE zeroOracle 1).log,
      logSpec (quotaOf 2 surplusBallots) r) :=
  ⟨by with_unfolding_all decide,
   C1_conservation 2 ["A", "B", "C"] surplusBallots false .NONE zeroOracle 1
     { alloc := [("A", [0, 1, 2, 3]), ("B", [4]), ("C", [5])],
       store := surplusBallots, elected := [], rounds := 0, log := [],
       dropped := 0, rngK := 0 }
     (by with_unfolding_all decide) (by with_unfolding_all decide)⟩

/-! ## Claim C6: idempotence of run-to-completion -/

/-- C6 (counterexample to the claim as stated): `calculate` mutates the
caller's ballot objects (rescaled weights, popped preferences), so a second
run on the same, already-completed inputs can return a different result.
One seat, candidates A and B, four ballots `A > B`: the first run elects A
and leaves every ballot as `B` at weight 1/3; the second run, fed those
mutated ballots, elects B instead. -/
theorem C6_counterexample :
    calculate 1 ["A", "B"] mutBallots false .NONE zeroOracle = .ok ["A"] ∧
    finalBallots 1 ["A", "B"] mutBallots false .NONE zeroOracle ≠ mutBallots ∧
    calculate 1 ["A", "B"]
        (finalBallots 1 ["A", "B"] mutBallots false .NONE zeroOracle)
        false .NONE zeroOracle
      = .ok ["B"] := by
  with_unfolding_all decide

/-- C6 (amended): re-running `calculate` returns the identical result
only on runs that leave the ballot objects unchanged — the claim's premise
"the same, already-completed election inputs" holds only then, because
`calculate` mutates the caller's ballots in place.  (A zero-surplus run
such as the exactly-at-quota example leaves them unchanged.) -/
theorem C6_idempotent (seats : Nat) (candidates : List Candidate)
    (ballots : List Ballot) (noDefaulting : Bool) (strat : TieStrategy)
    (oracle : Nat → Nat)
    (h : finalBallots seats candidates ballots noDefaulting strat oracle
       = ballots) :
    calculate seats candidates
        (finalBallots seats candidates ballots noDefaulting strat oracle)
        noDefaulting strat oracle
      = calculate seats candidates ballots noDefaulting strat oracle ∧
    calculateFull seats candidates
        (finalBallots seats candidates ballots noDefaulting strat oracle)
        noDefaulting strat oracle
      = calculateFull seats candidates ballots noDefaulting strat oracle := by
  rw [h]
  exact ⟨rfl, rfl⟩

/-- Witness for `C6_idempotent`: the exactly-at-quota election (one seat,
candidates A and B, two ballots `A`) leaves its ballots untouched and the
second run returns the identical result. -/
theorem C6_idempotent_witness :
    finalBallots 1 ["A", "B"] exactQuotaBallots false .NONE zeroOracle
      = exactQuotaBallots ∧
    (calculate 1 ["A", "B"]
        (finalBallots 1 ["A", "B"] exactQuotaBallots false .NONE zeroOracle)
        false .NONE zeroOracle
      = calculate 1 ["A", "B"] exactQuotaBallots false .NONE zeroOracle ∧
    calculateFull 1 ["A", "B"]
        (finalBallots 1 ["A", "B"] exactQuotaBallots false .NONE zeroOracle)
        false .NONE zeroOracle
      = calculateFull 1 ["A", "B"] exactQuotaBallots false .NONE zeroOracle) :=
  ⟨by with_unfolding_all decide,
   C6_idempotent 1 ["A", "B"] exactQuotaBallots false .NONE zeroOracle
     (by with_unfolding_all decide)⟩

/-- C4 (counterexample to the claim as stated): with two seats, the single
candidate A and no ballots, nobody ever reaches quota and A is elected by
default; the default-election round leaves the allocation untouched (the
bug of C3), so it is an executed round in which the key set does not
shrink, and the run takes 2 rounds even though there is only 1 candidate —
both halves of the claimed bound fail. -/
theorem C4_counterexample :
    calculate 2 ["A"] [] false .NONE zeroOracle = .ok ["A", "A"] ∧
    (calculateFull 2 ["A"] [] false .NONE zeroOracle).2.rounds = 2 ∧
    (["A"] : List Candidate).length = 1 ∧
    (boundaryState 2 ["A"] [] false .NONE zeroOracle 0).rounds = 0 ∧
    (boundaryState 2 ["A"] [] false .NONE zeroOracle 1).rounds = 1 ∧
    keys (boundaryState 2 ["A"] [] false .NONE zeroOracle 1).alloc
      = keys (boundaryState 2 ["A"] [] false .NONE zeroOracle 0).alloc := by
  with_unfolding_all decide
